import Mathlib

/-!
# Verification of the cat-food natural-language search core

Shallow embedding of `src/infrastructure/ai/search_service.py`
(`_extract_search_params`, `_build_sql_query`, `search`), of the SQL
semantics the generated queries rely on, and of the product-deletion
paths (`_delete_by_ids` in the deletion scripts, `clear_cat_food_data`,
`ProductRepository.delete`).

Machine reals do not appear: SQL `price` values and JSON numeric
literals are modelled as exact decimals `m / 10 ^ e`.
-/

namespace CatFood

/-- The ASCII single-quote character (39) used for SQL string literals. -/
def qc : Char := Char.ofNat 39

/-- A one-character string holding the SQL quote. -/
def sq : String := String.singleton qc

/-- Left brace character (123). -/
def obrace : Char := Char.ofNat 123

/-- Right brace character (125). -/
def cbrace : Char := Char.ofNat 125

/-- Decimal digit characters of a natural number, most significant
first, fuelled so the kernel can evaluate it. -/
def natDigitsAux : Nat → Nat → List Char
  | 0, _ => []
  | fuel + 1, n =>
    if n < 10 then [Char.ofNat (48 + n)]
    else natDigitsAux fuel (n / 10) ++ [Char.ofNat (48 + n % 10)]

/-- Decimal digit characters of a natural number, most significant first. -/
def natToDigits (n : Nat) : List Char := natDigitsAux (n + 1) n

/-- Numeric value of a list of decimal digit characters. -/
def digitsVal (ds : List Char) : Nat :=
  ds.foldl (fun a c => 10 * a + (c.toNat - 48)) 0

/-- A decimal number `m / 10 ^ e`, modelling a JSON numeric literal or a
stored float: `e` is the number of fractional digits as written. -/
structure Dec where
  m : Int
  e : Nat
deriving DecidableEq, Repr

/-- Rational value of a decimal. -/
def Dec.toQ (d : Dec) : ℚ := (d.m : ℚ) / (10 : ℚ) ^ d.e

/-- Rational value of a decimal given by its two components. -/
def decQ (m : Int) (e : Nat) : ℚ := (m : ℚ) / (10 : ℚ) ^ e

/-- Order on decimals by integer cross-multiplication (the SQL `<=` on
numeric values). -/
def Dec.ble (a b : Dec) : Bool :=
  decide (a.m * (10 : Int) ^ b.e ≤ b.m * (10 : Int) ^ a.e)

/-- Equality of decimals as numbers (the SQL `=` on numeric values). -/
def Dec.beqNum (a b : Dec) : Bool :=
  decide (a.m * (10 : Int) ^ b.e = b.m * (10 : Int) ^ a.e)

/-- Negation of a decimal. -/
def Dec.neg (a : Dec) : Dec := ⟨-a.m, a.e⟩

/-- Python `str()` of the decimal `m / 10 ^ e`: the digits of `|m|`,
left-padded so a digit precedes the point, with the decimal point
inserted `e` digits from the right (no point when `e = 0`),
and a leading minus sign for negative numbers. -/
def renderDecimal (m : Int) (e : Nat) : String :=
  let ds := List.replicate (e + 1 - (natToDigits m.natAbs).length) (Char.ofNat 48) ++
    natToDigits m.natAbs
  let body := if e = 0 then ds else ds.take (ds.length - e) ++
    Char.ofNat 46 :: ds.drop (ds.length - e)
  ⟨(if m < 0 then [Char.ofNat 45] else []) ++ body⟩

/-- JSON values, the subset `json.loads` can produce for the fields of the
brace-delimited object matched by `_extract_search_params` (the regex
`\x7b[^\x7d]+\x7d` excludes nested objects; arrays are not modelled, a
value our object parser rejects like Python rejects malformed text). -/
inductive JValue where
  | jnull : JValue
  | jbool : Bool → JValue
  | jnum : Int → Nat → JValue
  | jstr : String → JValue
deriving DecidableEq, Repr

/-- Python truthiness of a JSON value (`None`, `False`, `0`, `""` are falsy). -/
def JValue.truthy : JValue → Bool
  | .jnull => false
  | .jbool b => b
  | .jnum m _ => decide (m ≠ 0)
  | .jstr s => decide (s ≠ "")

/-- Python `str()` of a JSON value, as interpolated by an f-string. -/
def JValue.pyStr : JValue → String
  | .jnull => "None"
  | .jbool true => "True"
  | .jbool false => "False"
  | .jnum m e => renderDecimal m e
  | .jstr s => s

/-- The dict returned by `_extract_search_params`, projected to the four
keys `_build_sql_query` reads (`params.get(...)`); a key absent from the
parsed JSON object is `none`. -/
structure Params where
  food_type : Option JValue := none
  age_group : Option JValue := none
  brand : Option JValue := none
  max_price : Option JValue := none
deriving DecidableEq, Repr

/-- The empty dict `\x7b\x7d`, returned on every extraction parse failure. -/
def Params.empty : Params := {}

/-- Python truthiness of `params.get(key)`. -/
def optTruthy : Option JValue → Bool
  | none => false
  | some v => v.truthy

/-- `str(params[key])`, as interpolated into the SQL f-strings. -/
def optPyStr : Option JValue → String
  | none => "None"
  | some v => v.pyStr

/-- Characters before the first right brace, and the remainder after it. -/
def scanToBrace : List Char → Option (List Char × List Char)
  | [] => none
  | c :: cs =>
    if c = cbrace then some ([], cs)
    else (scanToBrace cs).map (fun p => (c :: p.1, p.2))

/-- The regex search `\x7b[^\x7d]+\x7d`: the leftmost brace-delimited
substring with at least one character between the braces. -/
def findJsonAux : List Char → Option (List Char)
  | [] => none
  | c :: cs =>
    if c = obrace then
      match scanToBrace cs with
      | some (content, _) =>
        if content = [] then findJsonAux cs
        else some (c :: content ++ [cbrace])
      | none => findJsonAux cs
    else findJsonAux cs

/-- `re.search(r"\x7b[^\x7d]+\x7d", text)` from `_extract_search_params`. -/
def findJsonMatch (s : String) : Option String :=
  (findJsonAux s.data).map (fun cs => ⟨cs⟩)

/-- Drop leading JSON whitespace. -/
def skipWs (cs : List Char) : List Char :=
  cs.dropWhile (fun c => c == ' ' || c == '\n' || c == '\t' || c == '\r')

/-- Characters of a JSON string body up to the closing double quote,
and the remainder (escape sequences are not modelled; a backslash is
kept verbatim, which only makes this parser reject or mis-read inputs
Python would handle — no claim depends on escaped content). -/
def scanQuoted : List Char → Option (List Char × List Char)
  | [] => none
  | c :: cs =>
    if c = '"' then some ([], cs)
    else (scanQuoted cs).map (fun p => (c :: p.1, p.2))

/-- Parse a JSON number literal (optional minus, digits, optional
fraction), returning it as an exact decimal. -/
def parseJNumber (cs : List Char) : Option (JValue × List Char) :=
  let neg := match cs with
    | c :: _ => c == Char.ofNat 45
    | [] => false
  let cs1 := if neg then cs.drop 1 else cs
  let intds := cs1.takeWhile Char.isDigit
  let rest := cs1.dropWhile Char.isDigit
  if intds = [] then none
  else
    match rest with
    | c :: rest2 =>
      if c = Char.ofNat 46 then
        let fds := rest2.takeWhile Char.isDigit
        if fds = [] then none
        else
          let mag : Int := (digitsVal (intds ++ fds) : Int)
          some (.jnum (if neg then -mag else mag) fds.length, rest2.dropWhile Char.isDigit)
      else some (.jnum (if neg then -(digitsVal intds : Int) else (digitsVal intds : Int)) 0, rest)
    | [] => some (.jnum (if neg then -(digitsVal intds : Int) else (digitsVal intds : Int)) 0, rest)

/-- Parse a single JSON value (string, `null`, `true`, `false`, or number). -/
def parseJVal (cs : List Char) : Option (JValue × List Char) :=
  match cs with
  | [] => none
  | c :: cs1 =>
    if c = '"' then (scanQuoted cs1).map (fun p => (.jstr ⟨p.1⟩, p.2))
    else if c = 'n' then
      if cs1.take 3 = ['u', 'l', 'l'] then some (.jnull, cs1.drop 3) else none
    else if c = 't' then
      if cs1.take 3 = ['r', 'u', 'e'] then some (.jbool true, cs1.drop 3) else none
    else if c = 'f' then
      if cs1.take 4 = ['a', 'l', 's', 'e'] then some (.jbool false, cs1.drop 4) else none
    else parseJNumber cs

/-- Record a parsed key/value pair: only the four filter keys are kept,
mirroring that `_build_sql_query` reads exactly these; a repeated key
overwrites, as in a Python dict. -/
def setField (p : Params) (k : String) (v : JValue) : Params :=
  if k = "food_type" then { p with food_type := some v }
  else if k = "age_group" then { p with age_group := some v }
  else if k = "brand" then { p with brand := some v }
  else if k = "max_price" then { p with max_price := some v }
  else p

/-- Parse the members of a JSON object after the opening brace, ending at
the closing brace which must end the input (fuelled by input length). -/
def parseMembers : Nat → Params → List Char → Option Params
  | 0, _, _ => none
  | fuel + 1, p, cs =>
    match skipWs cs with
    | [] => none
    | c :: cs1 =>
      if c ≠ '"' then none
      else
        match scanQuoted cs1 with
        | none => none
        | some (k, cs2) =>
          match skipWs cs2 with
          | ':' :: cs3 =>
            match parseJVal (skipWs cs3) with
            | none => none
            | some (v, cs4) =>
              let p1 := setField p ⟨k⟩ v
              match skipWs cs4 with
              | ',' :: cs5 => parseMembers fuel p1 cs5
              | c2 :: cs6 =>
                if c2 = cbrace then (if skipWs cs6 = [] then some p1 else none) else none
              | [] => none
          | _ => none

/-- `json.loads` on the matched substring, specialised to one flat JSON
object spanning the whole string; any other input is a parse failure. -/
def jsonLoads (s : String) : Option Params :=
  match skipWs s.data with
  | c :: cs =>
    if c = obrace then
      match skipWs cs with
      | d :: ds =>
        if d = cbrace then (if skipWs ds = [] then some Params.empty else none)
        else parseMembers (s.data.length + 1) Params.empty (d :: ds)
      | [] => none
    else none
  | [] => none

/-- `_extract_search_params`: the model completion is called *outside*
the `try` block, so an exception from it propagates; inside the `try`,
the first brace-delimited substring is parsed as JSON, any failure
(no match, malformed JSON) yielding the empty dict. -/
def extractSearchParams (llmResponse : Except String String) : Except String Params :=
  match llmResponse with
  | .error e => .error e
  | .ok response =>
    match findJsonMatch response with
    | some s =>
      match jsonLoads s with
      | some params => .ok params
      | none => .ok Params.empty
    | none => .ok Params.empty

/-! ## `_build_sql_query` -/

/-- The condition fragments accumulated by `_build_sql_query`, one per
truthy field in source order, each built by f-string interpolation of
`str(params[key])` exactly as the source does. -/
def buildConditions (params : Params) : List String :=
  (if optTruthy params.food_type then
    ["food_type ILIKE " ++ sq ++ "%" ++ optPyStr params.food_type ++ "%" ++ sq] else []) ++
  (if optTruthy params.age_group then
    ["age_group ILIKE " ++ sq ++ "%" ++ optPyStr params.age_group ++ "%" ++ sq] else []) ++
  (if optTruthy params.brand then
    ["brand ILIKE " ++ sq ++ "%" ++ optPyStr params.brand ++ "%" ++ sq] else []) ++
  (if optTruthy params.max_price then
    ["price <= " ++ optPyStr params.max_price] else [])

/-- Python `" AND ".join`. -/
def joinAnd : List String → String
  | [] => ""
  | [c] => c
  | c :: cs => c ++ " AND " ++ joinAnd cs

/-- The fixed text of the query before the WHERE clause. -/
def sqlPrefix : String :=
  "\n        SELECT id, name, brand, price, food_type, age_group, description\n        FROM cat_food_product\n        WHERE "

/-- The fixed text of the query after the WHERE clause. -/
def sqlSuffix : String := "\n        ORDER BY name\n        LIMIT 20;\n        "

/-- `_build_sql_query`: the WHERE clause is the AND-join of the condition
fragments, or `1=1` when no field is truthy, spliced into the fixed
SELECT/ORDER BY/LIMIT skeleton. -/
def buildSqlQuery (params : Params) : String :=
  let conditions := buildConditions params
  let whereClause := if conditions.isEmpty then "1=1" else joinAnd conditions
  sqlPrefix ++ whereClause ++ sqlSuffix

/-! ## The `cat_food_product` table and the semantics of the executed SQL

The generated query is a plain string handed to the database, so its
behaviour is the database's: we model the PostgreSQL lexing of string
literals (single quotes, doubled-quote escape), the boolean grammar
`OR` over `AND` over comparisons, static column/type checking, and
three-valued evaluation with `ILIKE` pattern matching.  A query the
database would reject (unterminated literal, unknown column, type
mismatch, leftover tokens) evaluates to `none`, the execution error. -/

/-- A row of `cat_food_product` as selected by the search query:
`name` and `brand` are NOT NULL, the other columns are nullable. -/
structure Row where
  id : Int
  name : String
  brand : String
  price : Option Dec
  food_type : Option String
  age_group : Option String
  descr : Option String
deriving DecidableEq, Repr

/-- SQL tokens of the WHERE clause. -/
inductive Tok where
  | ident : String → Tok
  | strLit : String → Tok
  | num : Dec → Tok
  | le : Tok
  | eq : Tok
deriving DecidableEq, Repr

/-- Scan a SQL string literal body after the opening quote: characters up
to the closing quote, a doubled quote standing for one quote character;
`none` when the literal is unterminated. -/
def scanLit : List Char → Option (List Char × List Char)
  | [] => none
  | c :: cs =>
    if c = qc then
      match cs with
      | [] => some ([], [])
      | d :: ds =>
        if d = qc then (scanLit ds).map (fun p => (qc :: p.1, p.2))
        else some ([], d :: ds)
    else (scanLit cs).map (fun p => (c :: p.1, p.2))

/-- Characters allowed inside an identifier. -/
def isIdentChar (c : Char) : Bool := c.isAlpha || c.isDigit || c == '_'

/-- Scan a numeric literal: digits with an optional fractional part,
returned as an exact decimal. -/
def scanNum (cs : List Char) : Option (Dec × List Char) :=
  let intds := cs.takeWhile Char.isDigit
  let rest := cs.dropWhile Char.isDigit
  if intds = [] then none
  else
    match rest with
    | c :: rest2 =>
      if c = Char.ofNat 46 then
        let fds := rest2.takeWhile Char.isDigit
        if fds = [] then none
        else some (⟨(digitsVal (intds ++ fds) : Int), fds.length⟩,
          rest2.dropWhile Char.isDigit)
      else some (⟨(digitsVal intds : Int), 0⟩, rest)
    | [] => some (⟨(digitsVal intds : Int), 0⟩, rest)

/-- Tokenize a WHERE clause (fuelled by input length): whitespace,
string literals, identifiers, numbers (a minus sign directly before
digits negates), `<=` and `=`; any other character is a lexical error. -/
def lexFuel : Nat → List Char → Option (List Tok)
  | _, [] => some []
  | 0, _ :: _ => none
  | fuel + 1, c :: cs =>
    if c == ' ' || c == '\n' || c == '\t' || c == '\r' then lexFuel fuel cs
    else if c == qc then
      match scanLit cs with
      | some (content, rest) => (lexFuel fuel rest).map (fun ts => Tok.strLit ⟨content⟩ :: ts)
      | none => none
    else if c.isAlpha || c == '_' then
      (lexFuel fuel (cs.dropWhile isIdentChar)).map
        (fun ts => Tok.ident ⟨c :: cs.takeWhile isIdentChar⟩ :: ts)
    else if c.isDigit then
      match scanNum (c :: cs) with
      | some (q, rest) => (lexFuel fuel rest).map (fun ts => Tok.num q :: ts)
      | none => none
    else if c == Char.ofNat 45 then
      match scanNum cs with
      | some (q, rest) => (lexFuel fuel rest).map (fun ts => Tok.num q.neg :: ts)
      | none => none
    else if c == '<' then
      match cs with
      | d :: rest => if d == '=' then (lexFuel fuel rest).map (fun ts => Tok.le :: ts) else none
      | [] => none
    else if c == '=' then (lexFuel fuel cs).map (fun ts => Tok.eq :: ts)
    else none

/-- Tokenize with sufficient fuel. -/
def lexAll (cs : List Char) : Option (List Tok) := lexFuel cs.length cs

/-- Comparison primaries: column reference, string literal, number. -/
inductive Prim where
  | col : String → Prim
  | lit : String → Prim
  | num : Dec → Prim
deriving DecidableEq, Repr

/-- Comparison operators occurring in generated clauses. -/
inductive CmpOp where
  | ilike : CmpOp
  | le : CmpOp
  | eq : CmpOp
deriving DecidableEq, Repr

/-- Boolean WHERE expressions. -/
inductive BExpr where
  | cmp : Prim → CmpOp → Prim → BExpr
  | and : BExpr → BExpr → BExpr
  | or : BExpr → BExpr → BExpr
deriving DecidableEq, Repr

/-- The reserved words of our WHERE grammar. -/
def isKeyword (s : String) : Bool := s == "AND" || s == "OR" || s == "ILIKE"

/-- Parse one primary. -/
def parsePrim : List Tok → Option (Prim × List Tok)
  | .ident s :: ts => if isKeyword s then none else some (.col s, ts)
  | .strLit s :: ts => some (.lit s, ts)
  | .num q :: ts => some (.num q, ts)
  | _ => none

/-- Parse one comparison operator. -/
def parseCmpOp : List Tok → Option (CmpOp × List Tok)
  | .ident s :: ts => if s = "ILIKE" then some (.ilike, ts) else none
  | .le :: ts => some (.le, ts)
  | .eq :: ts => some (.eq, ts)
  | _ => none

/-- Parse one comparison `primary op primary`. -/
def parseAtom (ts : List Tok) : Option (BExpr × List Tok) :=
  match parsePrim ts with
  | none => none
  | some (l, ts1) =>
    match parseCmpOp ts1 with
    | none => none
    | some (op, ts2) =>
      match parsePrim ts2 with
      | none => none
      | some (r, ts3) => some (.cmp l op r, ts3)

/-- Parse a conjunction of comparisons (`AND` binds tighter than `OR`). -/
def parseConjF : Nat → List Tok → Option (BExpr × List Tok)
  | 0, _ => none
  | fuel + 1, ts =>
    match parseAtom ts with
    | none => none
    | some (a, ts1) =>
      match ts1 with
      | .ident s :: ts2 =>
        if s = "AND" then
          match parseConjF fuel ts2 with
          | some (b, ts3) => some (.and a b, ts3)
          | none => none
        else some (a, ts1)
      | _ => some (a, ts1)

/-- Parse a disjunction of conjunctions. -/
def parseDisjF : Nat → List Tok → Option (BExpr × List Tok)
  | 0, _ => none
  | fuel + 1, ts =>
    match parseConjF (fuel + 1) ts with
    | none => none
    | some (a, ts1) =>
      match ts1 with
      | .ident s :: ts2 =>
        if s = "OR" then
          match parseDisjF fuel ts2 with
          | some (b, ts3) => some (.or a b, ts3)
          | none => none
        else some (a, ts1)
      | _ => some (a, ts1)

/-- Parse a whole WHERE clause; trailing tokens are a syntax error. -/
def parseWhere (ts : List Tok) : Option BExpr :=
  match parseDisjF (ts.length + 1) ts with
  | some (e, []) => some e
  | _ => none

/-- Column types of `cat_food_product` as used by the SELECT list. -/
inductive Ty where
  | tnum : Ty
  | tstr : Ty
deriving DecidableEq, BEq, Repr

/-- Type of a column, `none` for an unknown column name. -/
def colType (c : String) : Option Ty :=
  if c = "id" then some .tnum
  else if c = "price" then some .tnum
  else if c = "name" || c = "brand" || c = "age_group" || c = "food_type" || c = "description"
    then some .tstr
  else none

/-- Type of a primary. -/
def primTy : Prim → Option Ty
  | .col c => colType c
  | .lit _ => some .tstr
  | .num _ => some .tnum

/-- Static analysis of a WHERE expression, modelling the database's
rejection of unknown columns and mistyped comparisons. -/
def validate : BExpr → Bool
  | .cmp l op r =>
    match primTy l, primTy r with
    | some a, some b => a == b && (!(op == CmpOp.ilike) || a == Ty.tstr)
    | _, _ => false
  | .and a b => validate a && validate b
  | .or a b => validate a && validate b

/-- SQL three-valued logic. -/
inductive TV where
  | t : TV
  | f : TV
  | u : TV
deriving DecidableEq, BEq, Repr

/-- Kleene conjunction. -/
def tvAnd : TV → TV → TV
  | .t, x => x
  | .f, _ => .f
  | .u, .f => .f
  | .u, _ => .u

/-- Kleene disjunction. -/
def tvOr : TV → TV → TV
  | .f, x => x
  | .t, _ => .t
  | .u, .t => .t
  | .u, _ => .u

/-- Lift a boolean. -/
def tvOfBool (b : Bool) : TV := if b then .t else .f

/-- PostgreSQL LIKE pattern matching over characters: `%` matches any
sequence, `_` any single character, and the default escape character
backslash makes the following character literal (`\%` matches a percent
sign, `\b` matches `b`); anything else matches itself (fuelled so the
kernel can evaluate it; each step shortens pattern-plus-subject).  A
pattern ending in a dangling escape character is an error in PostgreSQL;
it matches nothing here, and the builder's patterns — a value between
`%` anchors — never end in one. -/
def likeMatchF : Nat → List Char → List Char → Bool
  | 0, _, _ => false
  | fuel + 1, p, s =>
    match p with
    | [] => s.isEmpty
    | pc :: ps =>
      if pc = '\\' then
        match ps with
        | [] => false
        | q :: ps2 =>
          match s with
          | [] => false
          | c :: s1 => (q == c) && likeMatchF fuel ps2 s1
      else if pc = '%' then
        likeMatchF fuel ps s ||
          (match s with
           | [] => false
           | _ :: s2 => likeMatchF fuel (pc :: ps) s2)
      else
        match s with
        | [] => false
        | c :: s1 =>
          if pc = '_' then likeMatchF fuel ps s1
          else (pc == c) && likeMatchF fuel ps s1

/-- LIKE matching with sufficient fuel. -/
def likeMatch (p s : List Char) : Bool := likeMatchF (p.length + s.length + 1) p s

/-- ASCII lowercasing of a character list. -/
def lowerList (cs : List Char) : List Char := cs.map Char.toLower

/-- `ILIKE`: case-insensitive LIKE. -/
def ilikeStr (s pat : String) : Bool := likeMatch (lowerList pat.data) (lowerList s.data)

/-- Runtime SQL values. -/
inductive SqlVal where
  | vnull : SqlVal
  | vstr : String → SqlVal
  | vnum : Dec → SqlVal
deriving DecidableEq, Repr

/-- The value of a column in a row (NULL for absent optional fields). -/
def Row.colVal (r : Row) (c : String) : SqlVal :=
  if c = "id" then .vnum ⟨r.id, 0⟩
  else if c = "name" then .vstr r.name
  else if c = "brand" then .vstr r.brand
  else if c = "price" then (match r.price with
    | some d => .vnum d
    | none => .vnull)
  else if c = "food_type" then (match r.food_type with
    | some s => .vstr s
    | none => .vnull)
  else if c = "age_group" then (match r.age_group with
    | some s => .vstr s
    | none => .vnull)
  else if c = "description" then (match r.descr with
    | some s => .vstr s
    | none => .vnull)
  else .vnull

/-- Evaluate a primary against a row. -/
def evalPrim (r : Row) : Prim → SqlVal
  | .col c => r.colVal c
  | .lit s => .vstr s
  | .num q => .vnum q

/-- Lexicographic order on character lists by code point, modelling the
database's text ordering and comparisons. -/
def charListLe : List Char → List Char → Bool
  | [], _ => true
  | _ :: _, [] => false
  | a :: as, b :: bs =>
    if a.toNat < b.toNat then true
    else if b.toNat < a.toNat then false
    else charListLe as bs

/-- Evaluate a comparison: NULL operands give UNKNOWN; `ILIKE` matches
patterns; `<=`/`=` compare like-typed values.  (Mistyped comparisons are
already rejected by `validate`; they default to UNKNOWN here.) -/
def evalCmp : SqlVal → CmpOp → SqlVal → TV
  | .vnull, _, _ => .u
  | _, _, .vnull => .u
  | .vstr a, .ilike, .vstr p => tvOfBool (ilikeStr a p)
  | .vnum a, .le, .vnum b => tvOfBool (a.ble b)
  | .vstr a, .le, .vstr b => tvOfBool (charListLe a.data b.data)
  | .vnum a, .eq, .vnum b => tvOfBool (a.beqNum b)
  | .vstr a, .eq, .vstr b => tvOfBool (a == b)
  | _, _, _ => .u

/-- Three-valued evaluation of a WHERE expression against a row. -/
def evalB (e : BExpr) (r : Row) : TV :=
  match e with
  | .cmp l op rp => evalCmp (evalPrim r l) op (evalPrim r rp)
  | .and a b => tvAnd (evalB a r) (evalB b r)
  | .or a b => tvOr (evalB a r) (evalB b r)

/-- The ORDER BY comparator: product name, ascending. -/
def nameLe (a b : Row) : Prop := charListLe a.name.data b.name.data = true

instance (a b : Row) : Decidable (nameLe a b) :=
  inferInstanceAs (Decidable (charListLe a.name.data b.name.data = true))

/-- Parse a generated query: the fixed SELECT/FROM/WHERE prefix, the
fixed ORDER BY/LIMIT suffix, and in between a lexed and parsed WHERE
clause; `none` models a database syntax error. -/
def parseQuery (sql : String) : Option BExpr :=
  let cs := sql.data
  if sqlPrefix.data.isPrefixOf cs then
    let rest := cs.drop sqlPrefix.data.length
    if sqlSuffix.data.isSuffixOf rest then
      match lexAll (rest.take (rest.length - sqlSuffix.data.length)) with
      | some ts => parseWhere ts
      | none => none
    else none
  else none

/-- Execute a generated query against the table: parse and validate it,
keep the rows on which the WHERE clause is TRUE, sort by name and apply
`LIMIT 20`; `none` is a database error. -/
def runQuery (db : List Row) (sql : String) : Option (List Row) :=
  match parseQuery sql with
  | some e =>
    if validate e then
      some ((List.insertionSort nameLe (db.filter (fun r => evalB e r == TV.t))).take 20)
    else none
  | none => none

/-- The unfiltered store listing: every row, ordered by name, first 20. -/
def unfilteredListing (db : List Row) : List Row := (List.insertionSort nameLe db).take 20

/-! ## `search` -/

/-- Python `str()` of a nullable string column in an f-string. -/
def optStr : Option String → String
  | none => "None"
  | some s => s

/-- Python `str()` of a nullable float column in an f-string. -/
def optDecStr : Option Dec → String
  | none => "None"
  | some d => renderDecimal d.m d.e

/-- One result line of `search`. -/
def formatRow (r : Row) : String :=
  "- " ++ r.name ++ " by " ++ r.brand ++ " ($" ++ optDecStr r.price ++ ") - " ++
    optStr r.food_type ++ " food for " ++ optStr r.age_group

/-- Python `"\n".join`. -/
def joinNl : List String → String
  | [] => ""
  | [c] => c
  | c :: cs => c ++ "\n" ++ joinNl cs

/-- The half of `search` after parameter extraction: build the SQL, run
it (a database error propagates), and format: the sentinel on zero
rows, otherwise a count header followed by one line per row. -/
def searchWith (db : List Row) (params : Params) : Except String String :=
  match runQuery db (buildSqlQuery params) with
  | none => .error "SQL execution error"
  | some rows =>
    if rows.isEmpty then .ok "No products found matching your criteria."
    else .ok (joinNl (("Found " ++ toString rows.length ++ " product(s):\n") :: rows.map formatRow))

/-- `SearchService.search`: extraction (whose own exceptions propagate)
followed by query construction, execution and formatting. -/
def search (db : List Row) (llmResponse : Except String String) : Except String String :=
  match extractSearchParams llmResponse with
  | .error e => .error e
  | .ok params => searchWith db params

/-! ## Semantic view of the generated conditions -/

/-- A generated condition, semantically: a case-insensitive containment
condition on a string column, or a price upper bound. -/
inductive SAtom where
  | scond : String → String → SAtom
  | pcond : Int → Nat → SAtom
deriving DecidableEq, Repr

/-- The semantic conditions corresponding to `buildConditions`. -/
def atomsOf (p : Params) : List SAtom :=
  (if optTruthy p.food_type then [.scond "food_type" (optPyStr p.food_type)] else []) ++
  (if optTruthy p.age_group then [.scond "age_group" (optPyStr p.age_group)] else []) ++
  (if optTruthy p.brand then [.scond "brand" (optPyStr p.brand)] else []) ++
  (match p.max_price with
   | some (.jnum m e) => if (JValue.jnum m e).truthy then [.pcond m e] else []
   | _ => [])

/-- The SQL text of a semantic condition. -/
def renderAtom : SAtom → String
  | .scond c v => c ++ " ILIKE " ++ sq ++ "%" ++ v ++ "%" ++ sq
  | .pcond m e => "price <= " ++ renderDecimal m e

/-- The expression a semantic condition parses to. -/
def semAtom : SAtom → BExpr
  | .scond c v => .cmp (.col c) .ilike (.lit ("%" ++ v ++ "%"))
  | .pcond m e => .cmp (.col "price") .le (.num ⟨m, e⟩)

/-- The token list of a semantic condition. -/
def atomToks : SAtom → List Tok
  | .scond c v => [.ident c, .ident "ILIKE", .strLit ("%" ++ v ++ "%")]
  | .pcond m e => [.ident "price", .le, .num ⟨m, e⟩]

/-- Tokens of an AND-joined condition list. -/
def toksOf : List SAtom → List Tok
  | [] => []
  | [a] => atomToks a
  | a :: rest => atomToks a ++ .ident "AND" :: toksOf rest

/-- The conjunction of a nonempty condition list. -/
def conjOf : SAtom → List SAtom → BExpr
  | a, [] => semAtom a
  | a, b :: rest => .and (semAtom a) (conjOf b rest)

/-- The `1=1` clause generated for the empty filter. -/
def trueExpr : BExpr := .cmp (.num ⟨1, 0⟩) .eq (.num ⟨1, 0⟩)

/-- The expression the generated WHERE clause denotes. -/
def whereExprOf (p : Params) : BExpr :=
  match atomsOf p with
  | [] => trueExpr
  | a :: rest => conjOf a rest

/-- A string free of SQL quote and LIKE wildcard characters, so that
interpolating it between `%` anchors yields a literal-substring match. -/
def cleanValue (v : String) : Bool :=
  v.data.all (fun c => !(c == qc || c == '%' || c == '_'))

/-- Well-formedness of a semantic condition: the column is one of the
three string columns the builder filters on, and the value is free of
SQL metacharacters. -/
def wfAtom : SAtom → Bool
  | .scond c v => (c == "food_type" || c == "age_group" || c == "brand") && cleanValue v
  | .pcond _ _ => true

/-- A string field whose interpolation is metacharacter-free. -/
def cleanField : Option JValue → Bool
  | some (.jstr v) => cleanValue v
  | _ => true

/-- A `max_price` that is absent, null, false, or numeric — anything an
honest JSON extraction can put there short of raw text. -/
def cleanPrice : Option JValue → Bool
  | some (.jstr _) => false
  | some (.jbool b) => !b
  | _ => true

/-- A filter whose interpolated values cannot alter the SQL structure. -/
def cleanParams (p : Params) : Bool :=
  cleanField p.food_type && cleanField p.age_group && cleanField p.brand &&
    cleanPrice p.max_price

/-- A string free of the SQL quote, the LIKE wildcards, and the LIKE
escape character (backslash, PostgreSQL's default), so that interpolating
it between `%` anchors yields a literal-substring match. -/
def literalValue (v : String) : Bool :=
  v.data.all (fun c => !(c == qc || c == '%' || c == '_' || c == '\\'))

/-- A string field whose interpolation matches as a literal substring. -/
def literalField : Option JValue → Bool
  | some (.jstr v) => literalValue v
  | _ => true

/-- A filter whose string values interpolate to literal-substring
conditions: beyond `cleanParams`, the values also carry no LIKE escape
character. -/
def literalParams (p : Params) : Bool :=
  literalField p.food_type && literalField p.age_group && literalField p.brand &&
    cleanPrice p.max_price

/-- Case-insensitive substring containment: the spec's matching contract
for string fields. -/
def containsCI (s v : String) : Prop :=
  lowerList v.data <:+: lowerList s.data

instance (s v : String) : Decidable (containsCI s v) :=
  inferInstanceAs (Decidable (lowerList v.data <:+: lowerList s.data))

/-! ## Deletion paths and the association-table invariant -/

/-- The relational state relevant to product deletion: product ids,
ingredient ids, and `product_ingredient_association` rows
`(product_id, ingredient_id)`. -/
structure DBState where
  products : List Nat
  ingredients : List Nat
  assocs : List (Nat × Nat)
deriving DecidableEq, Repr

/-- Referential integrity of association rows towards products: no
association row outlives its referenced product. -/
def assocIntegrity (st : DBState) : Prop :=
  ∀ a ∈ st.assocs, a.1 ∈ st.products

instance (st : DBState) : Decidable (assocIntegrity st) :=
  inferInstanceAs (Decidable (∀ a ∈ st.assocs, a.1 ∈ st.products))

/-- The DELETE statements the deletion paths execute. -/
inductive Stmt where
  | delAssocByProducts : List Nat → Stmt
  | delProducts : List Nat → Stmt
  | delAllAssocs : Stmt
  | delAllProducts : Stmt
  | delAllIngredients : Stmt
  | delOrphanIngredients : Stmt
deriving DecidableEq, Repr

/-- Execute one statement; deleting a product or ingredient still
referenced by an association row violates the schema's foreign keys
(plain `ForeignKey`, no ON DELETE CASCADE) and fails. -/
def execStmt (st : DBState) : Stmt → Except String DBState
  | .delAssocByProducts ids =>
    .ok { st with assocs := st.assocs.filter (fun a => decide (a.1 ∉ ids)) }
  | .delProducts ids =>
    if st.assocs.any (fun a => decide (a.1 ∈ ids)) then .error "foreign key violation"
    else .ok { st with products := st.products.filter (fun p => decide (p ∉ ids)) }
  | .delAllAssocs => .ok { st with assocs := [] }
  | .delAllProducts =>
    if st.assocs.any (fun a => decide (a.1 ∈ st.products)) then .error "foreign key violation"
    else .ok { st with products := [] }
  | .delAllIngredients =>
    if st.assocs.any (fun a => decide (a.2 ∈ st.ingredients)) then .error "foreign key violation"
    else .ok { st with ingredients := [] }
  | .delOrphanIngredients =>
    .ok { st with ingredients := st.ingredients.filter (fun i => st.assocs.any (fun a => a.2 == i)) }

/-- Execute a statement list in order, stopping at the first error. -/
def execProg (st : DBState) : List Stmt → Except String DBState
  | [] => .ok st
  | s :: rest =>
    match execStmt st s with
    | .ok st1 => execProg st1 rest
    | .error e => .error e

/-- `_delete_by_ids`, shared by `delete_products_by_name`,
`delete_products_by_url`, `delete_products_without_image` (and matched
verbatim by `remove_duplicate_kitten_products.delete_duplicates` and
`rollback_to_38_products`): nothing on an empty id list, otherwise
association rows first, then products, then optionally ingredients left
without any association. -/
def deleteByIdsProg (ids : List Nat) (deleteOrphanIngredients : Bool) : List Stmt :=
  if ids.isEmpty then []
  else [.delAssocByProducts ids, .delProducts ids] ++
    (if deleteOrphanIngredients then [.delOrphanIngredients] else [])

/-- `clear_cat_food_data`: all associations, then all products, then all
ingredients — "Order matters due to FK constraints". -/
def clearCatFoodProg : List Stmt :=
  [.delAllAssocs, .delAllProducts, .delAllIngredients]

/-- `ProductRepository.delete(product_id)`: fetch, return `False` when
absent; otherwise ORM-delete the product and commit.  The `ingredients`
relationship is a many-to-many with `secondary =
product_ingredient_association`, so the SQLAlchemy unit of work deletes
the product's association rows before the product row (the library's
documented behaviour for `secondary` relationships; the rows are loaded
by the `selectinload` in `get`). -/
def repositoryDelete (productId : Nat) (st : DBState) : Except String (Bool × DBState) :=
  if productId ∈ st.products then
    (execProg st [.delAssocByProducts [productId], .delProducts [productId]]).map
      (fun st1 => (true, st1))
  else .ok (false, st)

/-! ## Concrete inputs used by counterexamples and witnesses -/

/-- The spec's injection probe `O'Brien' OR '1'='1` as a brand value. -/
def injBrand : String :=
  "O" ++ sq ++ "Brien" ++ sq ++ " OR " ++ sq ++ "1" ++ sq ++ "=" ++ sq ++ "1"

/-- A filter whose brand is the injection probe. -/
def pInj : Params := { brand := some (.jstr injBrand) }

/-- The injection payload `%' OR '1'='1`: interpolated, it closes the
pattern early and disjoins a tautology-shaped comparison. -/
def injBrand2 : String :=
  "%" ++ sq ++ " OR " ++ sq ++ "1" ++ sq ++ "=" ++ sq ++ "1"

/-- A filter asking for `max_price = 20.0` with the disjunctive payload
as brand. -/
def pC6 : Params := { brand := some (.jstr injBrand2), max_price := some (.jnum 200 1) }

/-- A stored product priced at thirty dollars. -/
def rowX : Row :=
  { id := 1, name := "Pricey", brand := "X", price := some ⟨30, 0⟩,
    food_type := some "Dry", age_group := some "Adult", descr := none }

/-- A filter whose `max_price` is the non-numeric text `abc`. -/
def pAbc : Params := { max_price := some (.jstr "abc") }

/-- A filter whose `max_price` is the negative number `-5`. -/
def pNeg : Params := { max_price := some (.jnum (-5) 0) }

/-- A filter whose age-group value `k%t` contains a LIKE wildcard. -/
def pPct : Params := { age_group := some (.jstr "k%t") }

/-- A stored product whose age group `kAt` does not contain `k%t`. -/
def rowKat : Row :=
  { id := 2, name := "KatFood", brand := "B", price := some ⟨50, 1⟩,
    food_type := some "Wet", age_group := some "kAt", descr := none }

/-- A stored kitten product, age group with a qualifier in parentheses. -/
def rowK2 : Row :=
  { id := 3, name := "KittyYum", brand := "Acme", price := some ⟨150, 1⟩,
    food_type := some "Wet", age_group := some "Kitten (1-12m)", descr := none }

/-- The documented extraction result for "Find wet food for kittens",
restricted to its truthy field. -/
def pKitten : Params := { age_group := some (.jstr "kitten") }

/-- A filter with only the documented price bound `max_price = 20.0`. -/
def pMax : Params := { max_price := some (.jnum 200 1) }

/-- A stored product with every optional column NULL. -/
def rowNone : Row :=
  { id := 4, name := "Mystery", brand := "Acme", price := none,
    food_type := none, age_group := none, descr := none }

/-- A two-product store with association rows for both products. -/
def stEx : DBState := { products := [1, 2], ingredients := [10], assocs := [(1, 10), (2, 10)] }

/-! ## C1: extraction failure handling -/

/-- C1 (counterexample): the model completion is invoked before the
`try` block of `_extract_search_params`, so an exception raised by the
model call propagates to the caller instead of yielding the empty
filter — refuting the claim for the "model call raises" case. -/
theorem extract_raises_on_model_failure :
    extractSearchParams (Except.error "model unavailable") =
      Except.error "model unavailable" := rfl

/-- C1 (amended): whenever the model call itself returns text, the
extraction never raises; if the text contains no brace-delimited
substring, or the matched substring is not parseable JSON, the result
is exactly the empty filter. -/
theorem extract_ok_on_model_text (resp : String) :
    (∃ p, extractSearchParams (Except.ok resp) = Except.ok p) ∧
    (findJsonMatch resp = none →
      extractSearchParams (Except.ok resp) = Except.ok Params.empty) ∧
    (∀ s, findJsonMatch resp = some s → jsonLoads s = none →
      extractSearchParams (Except.ok resp) = Except.ok Params.empty) := by
  cases h : findJsonMatch resp with
  | none =>
    refine ⟨⟨Params.empty, ?_⟩, fun _ => ?_, by simp [h]⟩ <;>
      simp [extractSearchParams, h]
  | some s =>
    cases h2 : jsonLoads s with
    | none =>
      refine ⟨⟨Params.empty, ?_⟩, by simp [h], fun s1 hs1 _ => ?_⟩
      · simp [extractSearchParams, h, h2]
      · simp [extractSearchParams, h, h2]
    | some params =>
      refine ⟨⟨params, ?_⟩, by simp [h], fun s1 hs1 hl => ?_⟩
      · simp [extractSearchParams, h, h2]
      · rw [Option.some.injEq] at hs1
        subst hs1
        rw [h2] at hl
        exact absurd hl (by simp)

/-- Witness for C1's amended theorem at the concrete response
"no json here". -/
theorem extract_ok_on_model_text_witness :
    findJsonMatch "no json here" = none ∧
    extractSearchParams (Except.ok "no json here") = Except.ok Params.empty :=
  ⟨by decide, (extract_ok_on_model_text "no json here").2.1 (by decide)⟩

/-! ## C2: interpolated SQL is injectable -/

/-- C2: `_build_sql_query` interpolates the brand value into the SQL
text, so the spec's probe `O'Brien' OR '1'='1` leaves an unterminated
string literal: executing the built query is a database error, not a
literal-substring match — the claim fails on the code. -/
theorem injection_brand_breaks_query :
    runQuery [rowX] (buildSqlQuery pInj) = none ∧
    searchWith [rowX] pInj = Except.error "SQL execution error" := by
  exact ⟨rfl, rfl⟩

/-! ## C3: max_price is never coerced -/

/-- C3: a non-numeric `max_price` is interpolated verbatim, producing
`price <= abc` и a database error instead of being treated as absent;
a negative `max_price` likewise produces the condition `price <= -5`
instead of no condition — the claim fails on the code. -/
theorem nonnumeric_max_price_breaks_query :
    buildConditions pAbc = ["price <= abc"] ∧
    runQuery [rowX] (buildSqlQuery pAbc) = none ∧
    searchWith [rowX] pAbc = Except.error "SQL execution error" ∧
    buildConditions pNeg = ["price <= -5"] := by
  exact ⟨rfl, rfl, rfl, rfl⟩

/-! ## C7: zero matches yield the sentinel -/

/-- C7: whenever the executed query returns zero rows, `search` returns
exactly the sentinel string, with no header and no further lines. -/
theorem zero_rows_sentinel (db : List Row) (p : Params)
    (h : runQuery db (buildSqlQuery p) = some []) :
    searchWith db p = Except.ok "No products found matching your criteria." := by
  simp [searchWith, h]

/-- Witness for C7 on an empty store with the empty filter. -/
theorem zero_rows_sentinel_witness :
    runQuery [] (buildSqlQuery Params.empty) = some [] ∧
    searchWith [] Params.empty = Except.ok "No products found matching your criteria." :=
  ⟨rfl, zero_rows_sentinel [] Params.empty rfl⟩

/-! ## C8: result formatting -/

/-- C8: a non-empty result is rendered as a count header followed by
one line per returned row, in query order, each line of the form
`- <name> by <brand> ($<price>) - <food_type> food for <age_group>`;
NULL optional columns render as the placeholder `None` rather than the
line being dropped. -/
theorem nonempty_rows_formatting (db : List Row) (p : Params) (rows : List Row)
    (h : runQuery db (buildSqlQuery p) = some rows) (hne : rows ≠ []) :
    searchWith db p = Except.ok (joinNl
      (("Found " ++ toString rows.length ++ " product(s):\n") ::
        rows.map (fun r =>
          "- " ++ r.name ++ " by " ++ r.brand ++ " ($" ++ optDecStr r.price ++ ") - " ++
            optStr r.food_type ++ " food for " ++ optStr r.age_group))) ∧
    optStr none = "None" ∧ optDecStr none = "None" := by
  have hem : rows.isEmpty = false := by
    cases rows with
    | nil => exact absurd rfl hne
    | cons a l => rfl
  refine ⟨?_, rfl, rfl⟩
  simp only [searchWith, h, hem, Bool.false_eq_true, if_false]
  rfl

set_option maxRecDepth 4000 in
/-- Witness for C8: a one-row store whose row has every optional column
NULL still yields its line, with `None` placeholders. -/
theorem nonempty_rows_formatting_witness :
    searchWith [rowNone] Params.empty =
      Except.ok "Found 1 product(s):\n\n- Mystery by Acme ($None) - None food for None" := by
  have h := (nonempty_rows_formatting [rowNone] Params.empty [rowNone] (by decide) (by simp)).1
  rw [h]
  exact congrArg Except.ok (by decide)

/-! ## C9: deletion order and the association invariant -/

/-- C9: starting from any state where association rows reference only
existing products, every deletion path — the shared `_delete_by_ids` of
the bulk scripts (with or without orphan-ingredient cleanup), the
`clear_cat_food_data` script, and `ProductRepository.delete` — deletes
association rows before product rows, so execution never violates the
foreign keys, and afterwards no association row references a deleted
product. -/
theorem delete_paths_preserve_assoc_integrity (st : DBState) (ids : List Nat)
    (b : Bool) (pid : Nat) (hI : assocIntegrity st) :
    (∃ st1, execProg st (deleteByIdsProg ids b) = .ok st1 ∧ assocIntegrity st1 ∧
      ∀ a ∈ st1.assocs, a.1 ∉ ids) ∧
    (∃ st2, execProg st clearCatFoodProg = .ok st2 ∧ st2.assocs = []) ∧
    (∃ found st3, repositoryDelete pid st = .ok (found, st3) ∧ assocIntegrity st3 ∧
      ∀ a ∈ st3.assocs, a.1 ≠ pid) := by
  have key : ∀ (ids1 : List Nat), ∃ stA,
      execProg st [.delAssocByProducts ids1, .delProducts ids1] = .ok stA ∧
      assocIntegrity stA ∧ (∀ a ∈ stA.assocs, a.1 ∉ ids1) ∧
      stA.assocs = st.assocs.filter (fun a => decide (a.1 ∉ ids1)) ∧
      stA.ingredients = st.ingredients := by
    intro ids1
    have hany : (st.assocs.filter (fun a => decide (a.1 ∉ ids1))).any
        (fun a => decide (a.1 ∈ ids1)) = false := by
      simp only [List.any_eq_false, List.mem_filter]
      intro a ha
      simp at ha
      simp [ha.2]
    refine ⟨{ st with
                assocs := st.assocs.filter (fun a => decide (a.1 ∉ ids1)),
                products := st.products.filter (fun p => decide (p ∉ ids1)) },
      ?_, ?_, ?_, rfl, rfl⟩
    · simp only [execProg, execStmt, hany]
      rfl
    · intro a ha
      simp only [List.mem_filter, decide_eq_true_eq] at ha
      simp only [List.mem_filter, decide_eq_true_eq]
      exact ⟨hI a ha.1, ha.2⟩
    · intro a ha
      simp only [List.mem_filter, decide_eq_true_eq] at ha
      exact ha.2
  refine ⟨?_, ?_, ?_⟩
  · by_cases hids : ids.isEmpty
    · refine ⟨st, ?_, hI, ?_⟩
      · simp [deleteByIdsProg, hids, execProg]
      · intro a _
        rw [List.isEmpty_iff] at hids
        simp [hids]
    · obtain ⟨stA, hrun, hint, hnot, hfil, hing⟩ := key ids
      by_cases hb : b = true
      · refine ⟨{ stA with ingredients :=
          stA.ingredients.filter (fun i => stA.assocs.any (fun a => a.2 == i)) }, ?_, ?_, ?_⟩
        · simp only [deleteByIdsProg, hids, if_false, hb, if_true]
          rw [show ([Stmt.delAssocByProducts ids, Stmt.delProducts ids] ++
            [Stmt.delOrphanIngredients]) = [Stmt.delAssocByProducts ids, Stmt.delProducts ids,
              Stmt.delOrphanIngredients] from rfl]
          revert hrun
          simp only [execProg, execStmt]
          intro hrun
          split at hrun <;> simp_all [execProg, execStmt]
        · intro a ha
          exact hint a ha
        · intro a ha
          exact hnot a ha
      · rw [Bool.not_eq_true] at hb
        refine ⟨stA, ?_, hint, hnot⟩
        simpa [deleteByIdsProg, hids, hb] using hrun
  · refine ⟨{ st with products := [], assocs := [], ingredients := [] }, ?_, rfl⟩
    simp [clearCatFoodProg, execProg, execStmt]
  · by_cases hp : pid ∈ st.products
    · obtain ⟨stA, hrun, hint, hnot, hfil, hing⟩ := key [pid]
      refine ⟨true, stA, ?_, hint, ?_⟩
      · simp only [repositoryDelete, hp, if_true, hrun, Except.map]
      · intro a ha
        have := hnot a ha
        simpa using this
    · refine ⟨false, st, ?_, hI, ?_⟩
      · simp [repositoryDelete, hp]
      · intro a ha
        intro hcontra
        exact hp (hcontra ▸ hI a ha)

/-- Witness for C9 on a concrete two-product store. -/
theorem delete_paths_preserve_assoc_integrity_witness :
    assocIntegrity stEx ∧
    (∃ st1, execProg stEx (deleteByIdsProg [1] true) = .ok st1 ∧ assocIntegrity st1 ∧
      ∀ a ∈ st1.assocs, a.1 ∉ [1]) :=
  ⟨by decide, (delete_paths_preserve_assoc_integrity stEx [1] true 1 (by decide)).1⟩

/-! ## C10: falsy field values add no condition -/

/-- C10: a present but falsy field — `max_price` of 0 (or 0.0, or the
empty string as any string field) — contributes no condition, so the
built query is identical to the one for the filter with that field
absent; in particular `max_price = 0` imposes no price bound at all. -/
theorem falsy_fields_add_no_condition (p : Params) (e : Nat) :
    ((p.max_price = some (.jnum 0 e) ∨ p.max_price = some (.jstr "")) →
      buildConditions p = buildConditions { p with max_price := none } ∧
      buildSqlQuery p = buildSqlQuery { p with max_price := none }) ∧
    (p.food_type = some (.jstr "") →
      buildSqlQuery p = buildSqlQuery { p with food_type := none }) ∧
    (p.age_group = some (.jstr "") →
      buildSqlQuery p = buildSqlQuery { p with age_group := none }) ∧
    (p.brand = some (.jstr "") →
      buildSqlQuery p = buildSqlQuery { p with brand := none }) := by
  refine ⟨?_, ?_, ?_, ?_⟩
  · intro h
    have hcond : buildConditions p = buildConditions { p with max_price := none } := by
      rcases h with h | h <;>
        simp [buildConditions, h, optTruthy, JValue.truthy]
    exact ⟨hcond, by simp [buildSqlQuery, hcond]⟩
  all_goals
    intro h
    simp [buildSqlQuery, buildConditions, h, optTruthy, JValue.truthy]

/-- Witness for C10: a filter with `max_price = 0.0` builds the same
query as the empty filter. -/
theorem falsy_fields_add_no_condition_witness :
    buildSqlQuery { max_price := some (.jnum 0 1) } = buildSqlQuery Params.empty :=
  ((falsy_fields_add_no_condition { max_price := some (.jnum 0 1) } 1).1 (Or.inl rfl)).2

/-! ## C4: the empty filter -/

/-- The code-point lexicographic order is total. -/
theorem charListLe_total : ∀ as bs, charListLe as bs = true ∨ charListLe bs as = true
  | [], bs => Or.inl rfl
  | _ :: _, [] => Or.inr rfl
  | a :: as, b :: bs => by
    simp only [charListLe]
    rcases Nat.lt_trichotomy a.toNat b.toNat with h | h | h
    · left
      simp [h]
    · have h1 : ¬ a.toNat < b.toNat := by omega
      have h2 : ¬ b.toNat < a.toNat := by omega
      rcases charListLe_total as bs with ht | ht
      · left
        simp [h1, h2, ht]
      · right
        simp [h1, h2, ht]
    · right
      simp [h]

/-- The code-point lexicographic order is transitive. -/
theorem charListLe_trans : ∀ as bs cs, charListLe as bs = true → charListLe bs cs = true →
    charListLe as cs = true
  | [], _, _ => fun _ _ => rfl
  | _ :: _, [], _ => fun h _ => by simp [charListLe] at h
  | _ :: _, _ :: _, [] => fun _ h => by simp [charListLe] at h
  | a :: as, b :: bs, c :: cs => fun h1 h2 => by
    simp only [charListLe] at h1 h2 ⊢
    rcases Nat.lt_trichotomy a.toNat b.toNat with hab | hab | hab
    · rcases Nat.lt_trichotomy b.toNat c.toNat with hbc | hbc | hbc
      · simp [show a.toNat < c.toNat by omega]
      · simp [show a.toNat < c.toNat by omega]
      · simp [show ¬ b.toNat < c.toNat by omega, hbc] at h2
    · rcases Nat.lt_trichotomy b.toNat c.toNat with hbc | hbc | hbc
      · simp [show a.toNat < c.toNat by omega]
      · simp only [show ¬ a.toNat < b.toNat by omega, show ¬ b.toNat < a.toNat by omega,
          if_neg, if_false, reduceIte] at h1
        simp only [show ¬ b.toNat < c.toNat by omega, show ¬ c.toNat < b.toNat by omega,
          if_neg, if_false, reduceIte] at h2
        simp only [show ¬ a.toNat < c.toNat by omega, show ¬ c.toNat < a.toNat by omega,
          if_neg, if_false, reduceIte]
        exact charListLe_trans as bs cs h1 h2
      · simp [show ¬ b.toNat < c.toNat by omega, hbc] at h2
    · simp [show ¬ a.toNat < b.toNat by omega, hab] at h1

instance : IsTotal Row nameLe :=
  ⟨fun a b => charListLe_total a.name.data b.name.data⟩

instance : IsTrans Row nameLe :=
  ⟨fun a b c => charListLe_trans a.name.data b.name.data c.name.data⟩

set_option maxRecDepth 10000 in
/-- C4: the all-null filter generates the WHERE clause `1=1`, an
unconditionally TRUE predicate, and `search` executes it to exactly the
unfiltered listing: every stored product, ordered by name ascending,
truncated to at most 20 rows. -/
theorem empty_filter_unfiltered_listing (db : List Row) :
    parseQuery (buildSqlQuery Params.empty) = some trueExpr ∧
    (∀ r, evalB trueExpr r = TV.t) ∧
    runQuery db (buildSqlQuery Params.empty) = some (unfilteredListing db) ∧
    (unfilteredListing db).length ≤ 20 ∧
    List.Sorted nameLe (unfilteredListing db) := by
  have hparse : parseQuery (buildSqlQuery Params.empty) = some trueExpr := by decide
  have hall : ∀ r, evalB trueExpr r = TV.t := fun r => rfl
  have hfil : db.filter (fun r => evalB trueExpr r == TV.t) = db :=
    List.filter_eq_self.mpr (fun a _ => by rw [hall a]; rfl)
  refine ⟨hparse, hall, ?_, ?_, ?_⟩
  · simp only [runQuery, hparse, hfil]
    rfl
  · exact (List.length_take_le 20 _).trans_eq rfl
  · exact (List.sorted_insertionSort nameLe db).sublist (List.take_sublist 20 _)

/-! ## Lexer lemmas -/

/-- `scanLit` on a quote-free body followed by an unescaped closing quote. -/
theorem scanLit_append : ∀ (content rest : List Char), (∀ c ∈ content, c ≠ qc) →
    (rest = [] ∨ ∃ d ds, rest = d :: ds ∧ d ≠ qc) →
    scanLit (content ++ qc :: rest) = some (content, rest)
  | [], rest, _, hr => by
    rcases hr with h | ⟨d, ds, h, hd⟩
    · subst h
      simp [scanLit]
    · subst h
      simp [scanLit, hd]
  | c :: cs, rest, hc, hr => by
    have hcq : c ≠ qc := hc c (List.mem_cons_self c cs)
    have ih := scanLit_append cs rest (fun x hx => hc x (List.mem_cons_of_mem c hx)) hr
    rw [List.cons_append, scanLit.eq_def]
    simp [hcq, ih]

/-- The remainder returned by `scanLit` is no longer than its input. -/
theorem scanLit_len : ∀ cs a r, scanLit cs = some (a, r) → r.length ≤ cs.length
  | [], a, r => by
    rw [scanLit.eq_def]
    simp
  | c :: cs, a, r => by
    rw [scanLit.eq_def]
    dsimp only
    by_cases hc : c = qc
    · rw [if_pos hc]
      match cs with
      | [] =>
        dsimp only
        intro h
        simp only [Option.some.injEq, Prod.mk.injEq] at h
        simp [← h.2]
      | d :: ds =>
        dsimp only
        by_cases hd : d = qc
        · rw [if_pos hd]
          intro h
          rcases hsc : scanLit ds with _ | ⟨a2, r2⟩ <;> rw [hsc] at h
          · simp at h
          · simp at h
            obtain ⟨h1, h2⟩ := h
            subst h2
            have := scanLit_len ds a2 r2 hsc
            simp only [List.length_cons]
            omega
        · rw [if_neg hd]
          intro h
          simp at h
          obtain ⟨h1, h2⟩ := h
          subst h2
          simp
    · rw [if_neg hc]
      intro h
      rcases hsc : scanLit cs with _ | ⟨a2, r2⟩ <;> rw [hsc] at h
      · simp at h
      · simp at h
        obtain ⟨h1, h2⟩ := h
        subst h2
        have := scanLit_len cs a2 r2 hsc
        simp only [List.length_cons]
        omega

/-- The remainder returned by `scanNum` is strictly shorter than its input. -/
theorem scanNum_lt (cs : List Char) (d : Dec) (r : List Char) (h : scanNum cs = some (d, r)) :
    r.length < cs.length := by
  have hlen : (cs.takeWhile Char.isDigit).length + (cs.dropWhile Char.isDigit).length
      = cs.length := by
    rw [← List.length_append, List.takeWhile_append_dropWhile]
  simp only [scanNum] at h
  split at h
  · exact absurd h (by simp)
  · rename_i hi
    have hi1 : 1 ≤ (cs.takeWhile Char.isDigit).length := by
      rcases he : cs.takeWhile Char.isDigit with _ | ⟨x, xs⟩
      · exact absurd he hi
      · simp
    split at h
    · rename_i c rest2 heq
      split at h
      · split at h
        · exact absurd h (by simp)
        · simp only [Option.some.injEq, Prod.mk.injEq] at h
          have h2 := (List.dropWhile_sublist (l := rest2) Char.isDigit).length_le
          rw [← h.2]
          rw [heq] at hlen
          simp only [List.length_cons] at hlen
          omega
      · simp only [Option.some.injEq, Prod.mk.injEq] at h
        rw [heq] at hlen
        rw [← h.2]
        try rw [heq]
        simp only [List.length_cons] at hlen ⊢
        omega
    · rename_i heq
      simp only [Option.some.injEq, Prod.mk.injEq] at h
      rw [← h.2, heq]
      simp only [List.length_nil]
      omega

/-- Tokenization does not depend on the fuel, provided there is enough. -/
theorem lexFuel_congr : ∀ (f : Nat), ∀ (g : Nat) (cs : List Char), cs.length ≤ f →
    cs.length ≤ g → lexFuel f cs = lexFuel g cs := by
  intro f
  induction f with
  | zero =>
    intro g cs hf _
    rcases cs with _ | ⟨c, cs1⟩
    · cases g <;> rfl
    · simp at hf
  | succ f1 ih =>
    intro g cs hf hg
    rcases cs with _ | ⟨c, cs1⟩
    · cases g <;> rfl
    · rcases g with _ | g1
      · simp at hg
      · simp only [List.length_cons] at hf hg
        simp only [lexFuel]
        by_cases h1 : (c == ' ' || c == '\n' || c == '\t' || c == '\r') = true
        · rw [if_pos h1, if_pos h1]
          exact ih g1 cs1 (by omega) (by omega)
        · rw [if_neg h1, if_neg h1]
          by_cases h2 : (c == qc) = true
          · rw [if_pos h2, if_pos h2]
            rcases hsc : scanLit cs1 with _ | ⟨content, rest⟩
            · rfl
            · have := scanLit_len cs1 content rest hsc
              dsimp only
              rw [ih g1 rest (by omega) (by omega)]
          · rw [if_neg h2, if_neg h2]
            by_cases h3 : (c.isAlpha || c == '_') = true
            · rw [if_pos h3, if_pos h3]
              have := (List.dropWhile_sublist (l := cs1) isIdentChar).length_le
              rw [ih g1 (cs1.dropWhile isIdentChar) (by omega) (by omega)]
            · rw [if_neg h3, if_neg h3]
              by_cases h4 : c.isDigit = true
              · rw [if_pos h4, if_pos h4]
                rcases hsc : scanNum (c :: cs1) with _ | ⟨d, rest⟩
                · rfl
                · have := scanNum_lt (c :: cs1) d rest hsc
                  simp only [List.length_cons] at this
                  dsimp only
                  rw [ih g1 rest (by omega) (by omega)]
              · rw [if_neg h4, if_neg h4]
                by_cases h5 : (c == Char.ofNat 45) = true
                · rw [if_pos h5, if_pos h5]
                  rcases hsc : scanNum cs1 with _ | ⟨d, rest⟩
                  · rfl
                  · have := scanNum_lt cs1 d rest hsc
                    dsimp only
                    rw [ih g1 rest (by omega) (by omega)]
                · rw [if_neg h5, if_neg h5]
                  by_cases h6 : (c == '<') = true
                  · rw [if_pos h6, if_pos h6]
                    rcases cs1 with _ | ⟨d, rest⟩
                    · rfl
                    · dsimp only
                      by_cases hd : (d == '=') = true
                      · rw [if_pos hd, if_pos hd]
                        simp only [List.length_cons] at hf hg
                        rw [ih g1 rest (by omega) (by omega)]
                      · rw [if_neg hd, if_neg hd]
                  · rw [if_neg h6, if_neg h6]
                    by_cases h7 : (c == '=') = true
                    · rw [if_pos h7, if_pos h7]
                      rw [ih g1 cs1 (by omega) (by omega)]
                    · rw [if_neg h7, if_neg h7]

/-- Any sufficient fuel computes `lexAll`. -/
theorem lexFuel_eq_lexAll (f : Nat) (cs : List Char) (h : cs.length ≤ f) :
    lexFuel f cs = lexAll cs :=
  lexFuel_congr f cs.length cs h (Nat.le_refl _)

/-! ## Decimal rendering round-trips through the lexer -/

/-- Character-class facts about decimal digit characters. -/
theorem digitChar_class (k : Nat) (hk : k < 10) :
    (Char.ofNat (48 + k)).isDigit = true ∧
    ((Char.ofNat (48 + k)) == ' ' || (Char.ofNat (48 + k)) == '\n' ||
      (Char.ofNat (48 + k)) == '\t' || (Char.ofNat (48 + k)) == '\r') = false ∧
    ((Char.ofNat (48 + k)) == qc) = false ∧
    ((Char.ofNat (48 + k)).isAlpha || (Char.ofNat (48 + k)) == '_') = false ∧
    (Char.ofNat (48 + k)).toNat - 48 = k ∧
    (Char.ofNat (48 + k)) ≠ qc ∧ (Char.ofNat (48 + k)) ≠ Char.ofNat 46 := by
  interval_cases k <;> refine ⟨by decide, by decide, by decide, by decide, by decide,
    by decide, by decide⟩

/-- `natDigitsAux` emits nonempty strings of digit characters whose
value is the input, given sufficient fuel. -/
theorem natDigitsAux_spec : ∀ (fuel n : Nat), n < fuel →
    natDigitsAux fuel n ≠ [] ∧
    (∀ c ∈ natDigitsAux fuel n, ∃ k, k < 10 ∧ c = Char.ofNat (48 + k)) ∧
    digitsVal (natDigitsAux fuel n) = n := by
  intro fuel
  induction fuel with
  | zero => intro n h; omega
  | succ f ih =>
    intro n h
    by_cases h10 : n < 10
    · simp only [natDigitsAux, if_pos h10]
      refine ⟨by simp, ?_, ?_⟩
      · intro c hc
        simp only [List.mem_singleton] at hc
        exact ⟨n, h10, hc⟩
      · have hv := (digitChar_class n h10).2.2.2.2.1
        simp [digitsVal, hv]
    · simp only [natDigitsAux, if_neg h10]
      have hn : n / 10 < f := by omega
      obtain ⟨hne, hdig, hval⟩ := ih (n / 10) hn
      refine ⟨by simp, ?_, ?_⟩
      · intro c hc
        rw [List.mem_append] at hc
        rcases hc with hc | hc
        · exact hdig c hc
        · simp only [List.mem_singleton] at hc
          exact ⟨n % 10, by omega, hc⟩
      · have hv := (digitChar_class (n % 10) (by omega)).2.2.2.2.1
        simp only [digitsVal, List.foldl_append] at hval ⊢
        simp [hval, hv]
        omega

/-- `natToDigits` facts. -/
theorem natToDigits_spec (n : Nat) :
    natToDigits n ≠ [] ∧
    (∀ c ∈ natToDigits n, ∃ k, k < 10 ∧ c = Char.ofNat (48 + k)) ∧
    digitsVal (natToDigits n) = n :=
  natDigitsAux_spec (n + 1) n (by omega)

/-- Folding digits from an accumulator shifts the accumulator. -/
theorem digitsVal_foldl_acc : ∀ (b : List Char) (acc : Nat),
    b.foldl (fun a c => 10 * a + (c.toNat - 48)) acc = acc * 10 ^ b.length + digitsVal b := by
  intro b
  induction b with
  | nil => intro acc; simp [digitsVal]
  | cons c b ih =>
    intro acc
    have hc : digitsVal (c :: b) = (c.toNat - 48) * 10 ^ b.length + digitsVal b := by
      simp only [digitsVal, List.foldl_cons]
      rw [ih]
      simp [digitsVal]
    simp only [List.foldl_cons, List.length_cons]
    rw [ih, hc]
    ring

/-- The value of concatenated digit strings. -/
theorem digitsVal_append (a b : List Char) :
    digitsVal (a ++ b) = digitsVal a * 10 ^ b.length + digitsVal b := by
  simp only [digitsVal, List.foldl_append]
  exact digitsVal_foldl_acc b _

/-- Leading zero characters do not change the value. -/
theorem digitsVal_replicate (k : Nat) (ds : List Char) :
    digitsVal (List.replicate k (Char.ofNat 48) ++ ds) = digitsVal ds := by
  rw [digitsVal_append]
  have hz : digitsVal (List.replicate k (Char.ofNat 48)) = 0 := by
    induction k with
    | zero => rfl
    | succ k2 ih =>
      rw [List.replicate_succ]
      simp only [digitsVal, List.foldl_cons] at ih ⊢
      have : (10 * 0 + ((Char.ofNat 48).toNat - 48)) = 0 := by decide
      rw [this]
      exact ih
  simp [hz]

/-- The padded digit string of `renderDecimal`. -/
theorem renderPad_spec (k e : Nat) :
    (List.replicate (e + 1 - (natToDigits k).length) (Char.ofNat 48) ++ natToDigits k) ≠ [] ∧
    (∀ c ∈ List.replicate (e + 1 - (natToDigits k).length) (Char.ofNat 48) ++ natToDigits k,
      ∃ j, j < 10 ∧ c = Char.ofNat (48 + j)) ∧
    digitsVal (List.replicate (e + 1 - (natToDigits k).length) (Char.ofNat 48) ++
      natToDigits k) = k ∧
    e + 1 ≤ (List.replicate (e + 1 - (natToDigits k).length) (Char.ofNat 48) ++
      natToDigits k).length := by
  obtain ⟨hne, hdig, hval⟩ := natToDigits_spec k
  have hlen1 : 1 ≤ (natToDigits k).length := by
    cases hd : natToDigits k with
    | nil => exact absurd hd hne
    | cons x xs => simp
  refine ⟨by simp [hne], ?_, ?_, ?_⟩
  · intro c hc
    rw [List.mem_append] at hc
    rcases hc with hc | hc
    · rw [List.eq_of_mem_replicate hc]
      exact ⟨0, by omega, rfl⟩
    · exact hdig c hc
  · rw [digitsVal_replicate]
    exact hval
  · rw [List.length_append, List.length_replicate]
    omega

/-- Digit characters satisfy `Char.isDigit`. -/
theorem digitShaped_isDigit {l : List Char}
    (h : ∀ c ∈ l, ∃ j, j < 10 ∧ c = Char.ofNat (48 + j)) : ∀ c ∈ l, c.isDigit = true := by
  intro c hc
  obtain ⟨j, hj, hcj⟩ := h c hc
  subst hcj
  exact (digitChar_class j hj).1

/-- `scanNum` recovers a nonnegative rendered decimal exactly. -/
theorem scanNum_render_nat (k e : Nat) (rest : List Char)
    (hnd : rest.takeWhile Char.isDigit = [] ∧ rest.dropWhile Char.isDigit = rest)
    (hdot : rest = [] ∨ ∃ d ds, rest = d :: ds ∧ d ≠ Char.ofNat 46) :
    scanNum ((renderDecimal (k : Int) e).data ++ rest) = some (⟨(k : Int), e⟩, rest) := by
  obtain ⟨hPne, hPdig, hPval, hPlen⟩ := renderPad_spec k e
  set P := List.replicate (e + 1 - (natToDigits k).length) (Char.ofNat 48) ++ natToDigits k
    with hP
  have hPd : ∀ c ∈ P, c.isDigit = true := digitShaped_isDigit hPdig
  have hdata : (renderDecimal (k : Int) e).data =
      (if e = 0 then P else P.take (P.length - e) ++ Char.ofNat 46 :: P.drop (P.length - e)) := by
    simp only [renderDecimal, Int.natAbs_ofNat]
    rw [if_neg (by omega)]
    simp [hP, List.length_append, List.length_replicate]
  by_cases he : e = 0
  · subst he
    rw [hdata, if_pos rfl]
    simp only [scanNum]
    rw [List.takeWhile_append_of_pos hPd, List.dropWhile_append_of_pos hPd, hnd.1, hnd.2,
      List.append_nil]
    rw [if_neg (by simp [hPne])]
    rcases hdot with hr | ⟨d, ds, hr, hd⟩
    · subst hr
      simp [hPval]
    · subst hr
      dsimp only
      rw [if_neg hd]
      simp [hPval]
  · rw [hdata, if_neg he]
    have hA : ∀ c ∈ P.take (P.length - e), c.isDigit = true :=
      fun c hc => hPd c (List.mem_of_mem_take hc)
    have hB : ∀ c ∈ P.drop (P.length - e), c.isDigit = true :=
      fun c hc => hPd c ((List.drop_sublist _ _).subset hc)
    have hAne : P.take (P.length - e) ≠ [] := by
      have h1 : (P.take (P.length - e)).length = P.length - e := by
        rw [List.length_take]
        omega
      intro hcon
      rw [hcon] at h1
      simp at h1
      omega
    have hBlen : (P.drop (P.length - e)).length = e := by
      rw [List.length_drop]
      omega
    have hBne : P.drop (P.length - e) ≠ [] := by
      intro hcon
      rw [hcon] at hBlen
      simp at hBlen
      omega
    simp only [scanNum, List.append_assoc, List.cons_append]
    rw [List.takeWhile_append_of_pos hA, List.dropWhile_append_of_pos hA,
      List.takeWhile_cons_of_neg (by decide), List.dropWhile_cons_of_neg (by decide),
      List.append_nil]
    rw [if_neg hAne]
    dsimp only
    rw [if_pos rfl]
    rw [List.takeWhile_append_of_pos hB, List.dropWhile_append_of_pos hB, hnd.1, hnd.2,
      List.append_nil]
    rw [if_neg (by simp [hBne])]
    simp [hBlen, hPval]

/-! ## Tokenization of rendered fragments -/

/-- A leading space is skipped. -/
theorem lexAll_space (cs : List Char) : lexAll (' ' :: cs) = lexAll cs := by
  show lexFuel (cs.length + 1) (' ' :: cs) = lexAll cs
  simp only [lexFuel]
  rw [if_pos (by decide)]
  rfl

/-- A quote-free literal body between quotes tokenizes to one string
token. -/
theorem lexAll_strLit (content rest : List Char) (hc : ∀ c ∈ content, c ≠ qc)
    (hr : rest = [] ∨ ∃ d ds, rest = d :: ds ∧ d ≠ qc) :
    lexAll (qc :: (content ++ qc :: rest)) =
      (lexAll rest).map (fun ts => Tok.strLit ⟨content⟩ :: ts) := by
  have hscan := scanLit_append content rest hc hr
  show lexFuel ((content ++ qc :: rest).length + 1) (qc :: (content ++ qc :: rest)) = _
  simp only [lexFuel]
  rw [if_neg (by decide), if_pos (by decide), hscan]
  dsimp only
  rw [lexFuel_eq_lexAll _ rest (by simp only [List.length_append, List.length_cons]; omega)]

/-- An identifier followed by a non-identifier boundary tokenizes to one
identifier token. -/
theorem lexAll_ident (c : Char) (w rest : List Char)
    (h1 : (c == ' ' || c == '\n' || c == '\t' || c == '\r') = false)
    (h2 : (c == qc) = false)
    (h3 : (c.isAlpha || c == '_') = true)
    (hw : ∀ x ∈ w, isIdentChar x = true)
    (hr : rest = [] ∨ ∃ d ds, rest = d :: ds ∧ isIdentChar d = false) :
    lexAll ((c :: w) ++ rest) = (lexAll rest).map (fun ts => Tok.ident ⟨c :: w⟩ :: ts) := by
  have htw : (w ++ rest).takeWhile isIdentChar = w := by
    rw [List.takeWhile_append_of_pos hw]
    rcases hr with h | ⟨d, ds, h, hd⟩
    · subst h
      simp
    · subst h
      rw [List.takeWhile_cons_of_neg (by simp [hd]), List.append_nil]
  have hdw : (w ++ rest).dropWhile isIdentChar = rest := by
    rw [List.dropWhile_append_of_pos hw]
    rcases hr with h | ⟨d, ds, h, hd⟩
    · subst h
      simp
    · subst h
      rw [List.dropWhile_cons_of_neg (by simp [hd])]
  show lexFuel ((w ++ rest).length + 1) (c :: (w ++ rest)) = _
  simp only [lexFuel]
  rw [if_neg (by simp [h1]), if_neg (by simp [h2]), if_pos h3, htw, hdw]
  rw [lexFuel_eq_lexAll _ rest (by simp)]

/-- `<=` tokenizes to the `le` token. -/
theorem lexAll_leTok (cs : List Char) :
    lexAll ('<' :: '=' :: cs) = (lexAll cs).map (fun ts => Tok.le :: ts) := by
  show lexFuel (cs.length + 1 + 1) ('<' :: '=' :: cs) = _
  simp only [lexFuel]
  rw [if_neg (by decide), if_neg (by decide), if_neg (by decide), if_neg (by decide),
    if_neg (by decide), if_pos (by decide)]
  rw [if_pos (by decide)]
  rw [lexFuel_eq_lexAll _ cs (by simp)]

/-- A rendered decimal at a non-numeric boundary tokenizes to one number
token carrying exactly the decimal. -/
theorem lexAll_num (m : Int) (e : Nat) (rest : List Char)
    (hnd : rest.takeWhile Char.isDigit = [] ∧ rest.dropWhile Char.isDigit = rest)
    (hdot : rest = [] ∨ ∃ d ds, rest = d :: ds ∧ d ≠ Char.ofNat 46) :
    lexAll ((renderDecimal m e).data ++ rest) =
      (lexAll rest).map (fun ts => Tok.num ⟨m, e⟩ :: ts) := by
  rcases Int.le_or_lt 0 m with hm | hm
  · -- nonnegative: the body starts with a digit character
    obtain ⟨k, hk⟩ : ∃ k : Nat, m = (k : Int) := ⟨m.toNat, by omega⟩
    subst hk
    have hscan := scanNum_render_nat k e rest hnd hdot
    obtain ⟨hPne, hPdig, hPval, hPlen⟩ := renderPad_spec k e
    have hdata : (renderDecimal (k : Int) e).data =
        (if e = 0 then
          List.replicate (e + 1 - (natToDigits k).length) (Char.ofNat 48) ++ natToDigits k
        else
          (List.replicate (e + 1 - (natToDigits k).length) (Char.ofNat 48) ++
            natToDigits k).take
            ((List.replicate (e + 1 - (natToDigits k).length) (Char.ofNat 48) ++
              natToDigits k).length - e) ++
          Char.ofNat 46 ::
            (List.replicate (e + 1 - (natToDigits k).length) (Char.ofNat 48) ++
              natToDigits k).drop
              ((List.replicate (e + 1 - (natToDigits k).length) (Char.ofNat 48) ++
                natToDigits k).length - e)) := by
      simp only [renderDecimal, Int.natAbs_ofNat]
      rw [if_neg (by omega)]
      simp [List.length_append, List.length_replicate]
    -- the first character of the rendered decimal
    obtain ⟨c0, body, hbody, hc0⟩ : ∃ c0 body, (renderDecimal (k : Int) e).data = c0 :: body ∧
        ∃ j, j < 10 ∧ c0 = Char.ofNat (48 + j) := by
      rw [hdata]
      rcases hp : List.replicate (e + 1 - (natToDigits k).length) (Char.ofNat 48) ++
          natToDigits k with _ | ⟨x, xs⟩
      · exact absurd hp hPne
      · have hx := hPdig x (by rw [hp]; exact List.mem_cons_self x xs)
        by_cases he : e = 0
        · exact ⟨x, xs, by rw [if_pos he], hx⟩
        · have h2 := hPlen
          rw [hp] at h2
          have hlen : 1 ≤ (x :: xs).length - e := by
            simp only [List.length_cons] at h2 ⊢
            omega
          have htne : (x :: xs).take ((x :: xs).length - e) ≠ [] := by
            intro hcon
            have hct := congrArg List.length hcon
            rw [List.length_take] at hct
            simp only [List.length_nil] at hct
            omega
          obtain ⟨y, ys, ht⟩ := List.exists_cons_of_ne_nil htne
          refine ⟨y, ys ++ Char.ofNat 46 :: (x :: xs).drop ((x :: xs).length - e),
            by rw [if_neg he, ht]; rfl, ?_⟩
          have hy : y ∈ (x :: xs).take ((x :: xs).length - e) := by
            rw [ht]
            exact List.mem_cons_self y ys
          exact hPdig y (by rw [hp]; exact List.mem_of_mem_take hy)
    obtain ⟨j, hj, hc0j⟩ := hc0
    rw [hbody] at hscan ⊢
    have hcls := digitChar_class j hj
    show lexFuel ((body ++ rest).length + 1) (c0 :: (body ++ rest)) = _
    simp only [lexFuel, List.cons_append]
    rw [if_neg (by rw [hc0j]; simp [hcls.2.1]), if_neg (by rw [hc0j]; simp [hcls.2.2.1]),
      if_neg (by rw [hc0j]; simp [hcls.2.2.2.1]), if_pos (by rw [hc0j]; exact hcls.1)]
    rw [show c0 :: (body ++ rest) = (c0 :: body) ++ rest from rfl, hscan]
    dsimp only
    rw [lexFuel_eq_lexAll _ rest (by simp)]
  · -- negative: a minus sign, then the rendered absolute value
    have hneg : (renderDecimal m e).data = Char.ofNat 45 :: (renderDecimal (-m) e).data := by
      have h2 : ¬(-m < 0) := by omega
      simp only [renderDecimal, Int.natAbs_neg]
      rw [if_pos hm, if_neg h2]
      rfl
    obtain ⟨k, hk⟩ : ∃ k : Nat, -m = (k : Int) := ⟨(-m).toNat, by omega⟩
    have hscan := scanNum_render_nat k e rest hnd hdot
    rw [← hk] at hscan
    rw [hneg]
    show lexFuel (((renderDecimal (-m) e).data ++ rest).length + 1)
      (Char.ofNat 45 :: ((renderDecimal (-m) e).data ++ rest)) = _
    simp only [lexFuel]
    rw [if_neg (by decide), if_neg (by decide), if_neg (by decide), if_neg (by decide),
      if_pos (by decide), hscan]
    dsimp only
    rw [lexFuel_eq_lexAll _ rest (by simp)]
    have : Dec.neg ⟨-m, e⟩ = ⟨m, e⟩ := by
      simp [Dec.neg]
    rw [this]

/-! ## Parser lemmas -/

/-- `parsePrim` consumes exactly one token. -/
theorem parsePrim_len (ts : List Tok) (p : Prim) (r : List Tok) (h : parsePrim ts = some (p, r)) :
    ts.length = r.length + 1 := by
  rcases ts with _ | ⟨t, ts1⟩
  · simp [parsePrim] at h
  · cases t with
    | ident s =>
      simp only [parsePrim] at h
      split at h
      · exact absurd h (by simp)
      · simp only [Option.some.injEq, Prod.mk.injEq] at h
        rw [← h.2]
        simp
    | strLit s =>
      simp only [parsePrim, Option.some.injEq, Prod.mk.injEq] at h
      rw [← h.2]
      simp
    | num d =>
      simp only [parsePrim, Option.some.injEq, Prod.mk.injEq] at h
      rw [← h.2]
      simp
    | le => simp [parsePrim] at h
    | eq => simp [parsePrim] at h

/-- `parseCmpOp` consumes exactly one token. -/
theorem parseCmpOp_len (ts : List Tok) (op : CmpOp) (r : List Tok)
    (h : parseCmpOp ts = some (op, r)) : ts.length = r.length + 1 := by
  rcases ts with _ | ⟨t, ts1⟩
  · simp [parseCmpOp] at h
  · cases t with
    | ident s =>
      simp only [parseCmpOp] at h
      split at h
      · simp only [Option.some.injEq, Prod.mk.injEq] at h
        rw [← h.2]
        simp
      · exact absurd h (by simp)
    | strLit s => simp [parseCmpOp] at h
    | num d => simp [parseCmpOp] at h
    | le =>
      simp only [parseCmpOp, Option.some.injEq, Prod.mk.injEq] at h
      rw [← h.2]
      simp
    | eq =>
      simp only [parseCmpOp, Option.some.injEq, Prod.mk.injEq] at h
      rw [← h.2]
      simp

/-- `parseAtom` consumes exactly three tokens. -/
theorem parseAtom_len (ts : List Tok) (e : BExpr) (r : List Tok)
    (h : parseAtom ts = some (e, r)) : ts.length = r.length + 3 := by
  simp only [parseAtom] at h
  rcases h1 : parsePrim ts with _ | ⟨l, ts1⟩ <;> rw [h1] at h
  · simp at h
  · dsimp only at h
    rcases h2 : parseCmpOp ts1 with _ | ⟨op, ts2⟩ <;> rw [h2] at h
    · simp at h
    · dsimp only at h
      rcases h3 : parsePrim ts2 with _ | ⟨rp, ts3⟩ <;> rw [h3] at h
      · simp at h
      · dsimp only at h
        simp only [Option.some.injEq, Prod.mk.injEq] at h
        have e1 := parsePrim_len ts l ts1 h1
        have e2 := parseCmpOp_len ts1 op ts2 h2
        have e3 := parsePrim_len ts2 rp ts3 h3
        rw [← h.2]
        omega

/-- Conjunction parsing does not depend on the fuel, provided enough. -/
theorem parseConjF_congr : ∀ (f : Nat), ∀ (g : Nat) (ts : List Tok), ts.length ≤ f →
    ts.length ≤ g → parseConjF f ts = parseConjF g ts := by
  intro f
  induction f with
  | zero =>
    intro g ts hf _
    have hts : ts = [] := List.length_eq_zero.mp (by omega)
    subst hts
    cases g with
    | zero => rfl
    | succ g1 => simp [parseConjF, parseAtom, parsePrim]
  | succ f1 ih =>
    intro g ts hf hg
    cases g with
    | zero =>
      have hts : ts = [] := List.length_eq_zero.mp (by omega)
      subst hts
      simp [parseConjF, parseAtom, parsePrim]
    | succ g1 =>
      simp only [parseConjF]
      rcases hpa : parseAtom ts with _ | ⟨a, ts1⟩
      · rfl
      · have hlen := parseAtom_len ts a ts1 hpa
        dsimp only
        rcases ts1 with _ | ⟨t, ts2⟩
        · rfl
        · cases t <;> try rfl

          rename_i s
          dsimp only
          by_cases hs : s = "AND"
          · rw [if_pos hs, if_pos hs]
            simp only [List.length_cons] at hlen
            rw [ih g1 ts2 (by omega) (by omega)]
          · rw [if_neg hs, if_neg hs]

/-- Each semantic condition renders to exactly three tokens. -/
theorem atomToks_length (a : SAtom) : (atomToks a).length = 3 := by
  cases a <;> rfl

/-- `parseAtom` recovers a well-formed semantic condition. -/
theorem parseAtom_toks (a : SAtom) (ts : List Tok) (hwf : wfAtom a = true) :
    parseAtom (atomToks a ++ ts) = some (semAtom a, ts) := by
  cases a with
  | scond c v =>
    simp only [wfAtom, Bool.and_eq_true, Bool.or_eq_true, beq_iff_eq] at hwf
    have hkw : isKeyword c = false := by
      rcases hwf.1 with (h | h) | h <;> subst h <;> rfl
    simp [atomToks, semAtom, parseAtom, parsePrim, parseCmpOp, hkw]
  | pcond m e =>
    simp [atomToks, semAtom, parseAtom, parsePrim, parseCmpOp, isKeyword]

/-- Parsing the AND-joined token list of well-formed conditions yields
their conjunction and consumes everything. -/
theorem parseConj_toks : ∀ (a : SAtom) (rest : List SAtom),
    (∀ x ∈ a :: rest, wfAtom x = true) → ∀ f, (toksOf (a :: rest)).length < f →
    parseConjF f (toksOf (a :: rest)) = some (conjOf a rest, []) := by
  intro a rest
  induction rest generalizing a with
  | nil =>
    intro hwf f hlen
    cases f with
    | zero => omega
    | succ f1 =>
      simp only [parseConjF]
      have : toksOf [a] = atomToks a ++ [] := by
        simp [toksOf]
      rw [this, parseAtom_toks a [] (hwf a (List.mem_cons_self a []))]
      rfl
  | cons b rest2 ih =>
    intro hwf f hlen
    cases f with
    | zero => omega
    | succ f1 =>
      have htl : toksOf (a :: b :: rest2) = atomToks a ++ .ident "AND" :: toksOf (b :: rest2) :=
        rfl
      simp only [parseConjF, htl]
      rw [parseAtom_toks a _ (hwf a (List.mem_cons_self a _))]
      dsimp only
      rw [if_pos rfl]
      have hlen2 : (toksOf (b :: rest2)).length < f1 := by
        rw [htl] at hlen
        simp only [List.length_append, atomToks_length, List.length_cons] at hlen
        omega
      rw [ih b (fun x hx => hwf x (List.mem_cons_of_mem a hx)) f1 hlen2]
      rfl

/-- The whole WHERE parse of a nonempty condition list. -/
theorem parseWhere_toks (a : SAtom) (rest : List SAtom)
    (hwf : ∀ x ∈ a :: rest, wfAtom x = true) :
    parseWhere (toksOf (a :: rest)) = some (conjOf a rest) := by
  have hconj := parseConj_toks a rest hwf ((toksOf (a :: rest)).length + 1) (by omega)
  simp only [parseWhere, parseDisjF]
  rw [hconj]

/-- Lexing a rendered string condition. -/
theorem lexAll_scond (c v : String) (rest : List Char)
    (hcol : c = "food_type" ∨ c = "age_group" ∨ c = "brand")
    (hv : cleanValue v = true)
    (hrest : rest = [] ∨ ∃ ds, rest = ' ' :: ds) :
    lexAll ((renderAtom (.scond c v)).data ++ rest) =
      (lexAll rest).map (fun ts =>
        Tok.ident c :: Tok.ident "ILIKE" :: Tok.strLit ("%" ++ v ++ "%") :: ts) := by
  have hvq : ∀ x ∈ v.data, x ≠ qc := by
    intro x hx
    have h2 := (List.all_eq_true.mp hv) x hx
    simp only [Bool.not_eq_true', Bool.or_eq_false_iff, beq_eq_false_iff_ne] at h2
    exact h2.1.1
  have hpat : ∀ x ∈ '%' :: (v.data ++ ['%']), x ≠ qc := by
    intro x hx
    rcases List.mem_cons.mp hx with h | h
    · subst h
      decide
    · rcases List.mem_append.mp h with h | h
      · exact hvq x h
      · simp only [List.mem_singleton] at h
        subst h
        decide
  have hpatstr : ("%" ++ v ++ "%" : String) = ⟨'%' :: (v.data ++ ['%'])⟩ := by
    apply String.ext
    simp [String.data_append]
  have hlit : lexAll (qc :: (('%' :: (v.data ++ ['%'])) ++ (qc :: rest))) =
      (lexAll rest).map (fun ts => Tok.strLit ("%" ++ v ++ "%") :: ts) := by
    rw [lexAll_strLit ('%' :: (v.data ++ ['%'])) rest hpat ?_]
    · rw [hpatstr]
    · rcases hrest with h | ⟨ds, h⟩
      · exact Or.inl h
      · exact Or.inr ⟨' ', ds, h, by decide⟩
  have hilike : lexAll ((' ' :: 'I' :: ("LIKE".data ++ (' ' ::
      (qc :: (('%' :: (v.data ++ ['%'])) ++ (qc :: rest))))))) =
      (lexAll rest).map (fun ts => Tok.ident "ILIKE" :: Tok.strLit ("%" ++ v ++ "%") :: ts) := by
    rw [lexAll_space]
    rw [show ('I' :: ("LIKE".data ++ (' ' :: (qc :: (('%' :: (v.data ++ ['%'])) ++ (qc :: rest))))))
        = ('I' :: "LIKE".data) ++ (' ' :: (qc :: (('%' :: (v.data ++ ['%'])) ++ (qc :: rest))))
      from rfl]
    rw [lexAll_ident 'I' "LIKE".data _ (by decide) (by decide) (by decide) (by decide)
      (Or.inr ⟨' ', _, rfl, by decide⟩)]
    rw [lexAll_space, hlit]
    rcases lexAll rest with _ | ts <;> rfl
  rcases hcol with h | h | h <;> subst h
  · rw [show (renderAtom (SAtom.scond "food_type" v)).data ++ rest =
        ('f' :: "ood_type".data) ++ (' ' :: 'I' :: ("LIKE".data ++ (' ' ::
          (qc :: (('%' :: (v.data ++ ['%'])) ++ (qc :: rest)))))) by
      simp [renderAtom, String.data_append, sq, String.singleton, qc]]
    rw [lexAll_ident 'f' "ood_type".data _ (by decide) (by decide) (by decide) (by decide)
      (Or.inr ⟨' ', _, rfl, by decide⟩)]
    rw [hilike]
    rcases lexAll rest with _ | ts <;> rfl
  · rw [show (renderAtom (SAtom.scond "age_group" v)).data ++ rest =
        ('a' :: "ge_group".data) ++ (' ' :: 'I' :: ("LIKE".data ++ (' ' ::
          (qc :: (('%' :: (v.data ++ ['%'])) ++ (qc :: rest)))))) by
      simp [renderAtom, String.data_append, sq, String.singleton, qc]]
    rw [lexAll_ident 'a' "ge_group".data _ (by decide) (by decide) (by decide) (by decide)
      (Or.inr ⟨' ', _, rfl, by decide⟩)]
    rw [hilike]
    rcases lexAll rest with _ | ts <;> rfl
  · rw [show (renderAtom (SAtom.scond "brand" v)).data ++ rest =
        ('b' :: "rand".data) ++ (' ' :: 'I' :: ("LIKE".data ++ (' ' ::
          (qc :: (('%' :: (v.data ++ ['%'])) ++ (qc :: rest)))))) by
      simp [renderAtom, String.data_append, sq, String.singleton, qc]]
    rw [lexAll_ident 'b' "rand".data _ (by decide) (by decide) (by decide) (by decide)
      (Or.inr ⟨' ', _, rfl, by decide⟩)]
    rw [hilike]
    rcases lexAll rest with _ | ts <;> rfl


/-- Lexing a rendered price condition. -/
theorem lexAll_pcond (m : Int) (e : Nat) (rest : List Char)
    (hrest : rest = [] ∨ ∃ ds, rest = ' ' :: ds) :
    lexAll ((renderAtom (.pcond m e)).data ++ rest) =
      (lexAll rest).map (fun ts => Tok.ident "price" :: Tok.le :: Tok.num ⟨m, e⟩ :: ts) := by
  have hnum : lexAll ((renderDecimal m e).data ++ rest) =
      (lexAll rest).map (fun ts => Tok.num ⟨m, e⟩ :: ts) := by
    apply lexAll_num
    · constructor
      · rcases hrest with h | ⟨ds, h⟩ <;> subst h
        · rfl
        · rw [List.takeWhile_cons_of_neg (by decide)]
      · rcases hrest with h | ⟨ds, h⟩ <;> subst h
        · rfl
        · rw [List.dropWhile_cons_of_neg (by decide)]
    · rcases hrest with h | ⟨ds, h⟩
      · exact Or.inl h
      · exact Or.inr ⟨' ', ds, h, by decide⟩
  rw [show (renderAtom (SAtom.pcond m e)).data ++ rest =
      ('p' :: "rice".data) ++ (' ' :: ('<' :: '=' :: (' ' :: ((renderDecimal m e).data ++ rest))))
    by simp [renderAtom, String.data_append]]
  rw [lexAll_ident 'p' "rice".data _ (by decide) (by decide) (by decide) (by decide)
    (Or.inr ⟨' ', _, rfl, by decide⟩)]
  rw [lexAll_space, lexAll_leTok, lexAll_space, hnum]
  rcases lexAll rest with _ | ts <;> rfl

/-- Lexing one rendered condition with a space-or-end boundary. -/
theorem lexAll_atom (a : SAtom) (rest : List Char) (hwf : wfAtom a = true)
    (hrest : rest = [] ∨ ∃ ds, rest = ' ' :: ds) :
    lexAll ((renderAtom a).data ++ rest) = (lexAll rest).map (fun ts => atomToks a ++ ts) := by
  cases a with
  | scond c v =>
    simp only [wfAtom, Bool.and_eq_true, Bool.or_eq_true, beq_iff_eq] at hwf
    rw [lexAll_scond c v rest (by tauto) hwf.2 hrest]
    rfl
  | pcond m e =>
    rw [lexAll_pcond m e rest hrest]
    rfl

/-- Lexing the AND-join of rendered well-formed conditions. -/
theorem lexAll_joinAnd : ∀ (a : SAtom) (rest : List SAtom), wfAtom a = true →
    (∀ x ∈ rest, wfAtom x = true) →
    lexAll (joinAnd ((a :: rest).map renderAtom)).data = some (toksOf (a :: rest)) := by
  intro a rest
  induction rest generalizing a with
  | nil =>
    intro hwa _
    rw [show (joinAnd ([a].map renderAtom)).data = (renderAtom a).data ++ [] by
      simp [joinAnd]]
    rw [lexAll_atom a [] hwa (Or.inl rfl)]
    rw [show lexAll [] = some [] from rfl]
    simp [toksOf]
  | cons b rest2 ih =>
    intro hwa hwr
    rw [show (joinAnd ((a :: b :: rest2).map renderAtom)).data =
        (renderAtom a).data ++ (' ' :: (('A' :: "ND".data) ++ (' ' ::
          (joinAnd ((b :: rest2).map renderAtom)).data))) by
      simp [joinAnd, String.data_append]]
    rw [lexAll_atom a _ hwa (Or.inr ⟨_, rfl⟩)]
    rw [lexAll_space]
    rw [lexAll_ident 'A' "ND".data _ (by decide) (by decide) (by decide) (by decide)
      (Or.inr ⟨' ', _, rfl, by decide⟩)]
    rw [lexAll_space]
    rw [ih b (hwr b (List.mem_cons_self b rest2)) (fun x hx => hwr x (List.mem_cons_of_mem b hx))]
    rfl


/-- Under a clean filter the built condition strings are exactly the
rendered semantic conditions. -/
theorem buildConditions_atoms (p : Params) (hc : cleanParams p = true) :
    buildConditions p = (atomsOf p).map renderAtom := by
  simp only [cleanParams, Bool.and_eq_true] at hc
  obtain ⟨⟨⟨h1, h2⟩, h3⟩, h4⟩ := hc
  have hft : ∀ V, ("food_type ILIKE " ++ sq ++ "%" ++ V ++ "%" ++ sq) =
      renderAtom (.scond "food_type" V) := by
    intro V
    apply String.ext
    simp [renderAtom, String.data_append]
  have hag : ∀ V, ("age_group ILIKE " ++ sq ++ "%" ++ V ++ "%" ++ sq) =
      renderAtom (.scond "age_group" V) := by
    intro V
    apply String.ext
    simp [renderAtom, String.data_append]
  have hbr : ∀ V, ("brand ILIKE " ++ sq ++ "%" ++ V ++ "%" ++ sq) =
      renderAtom (.scond "brand" V) := by
    intro V
    apply String.ext
    simp [renderAtom, String.data_append]
  simp only [buildConditions, atomsOf, List.map_append]
  congr 1
  · congr 1
    · congr 1
      · by_cases hb : optTruthy p.food_type = true
        · rw [if_pos hb, if_pos hb]
          simp [hft]
        · rw [if_neg hb, if_neg hb]
          rfl
      · by_cases hb : optTruthy p.age_group = true
        · rw [if_pos hb, if_pos hb]
          simp [hag]
        · rw [if_neg hb, if_neg hb]
          rfl
    · by_cases hb : optTruthy p.brand = true
      · rw [if_pos hb, if_pos hb]
        simp [hbr]
      · rw [if_neg hb, if_neg hb]
        rfl
  · rcases hm : p.max_price with _ | v
    · rfl
    · cases v with
      | jnull => rfl
      | jbool b =>
        rw [hm] at h4
        simp only [cleanPrice, Bool.not_eq_true'] at h4
        subst h4
        rfl
      | jnum m e =>
        dsimp only [optTruthy]
        by_cases hb : (JValue.jnum m e).truthy = true
        · rw [if_pos hb, if_pos hb]
          rfl
        · rw [if_neg hb, if_neg hb]
          rfl
      | jstr v2 =>
        rw [hm] at h4
        simp [cleanPrice] at h4

/-- Parsing of the assembled query reduces to parsing the WHERE text. -/
theorem parseQuery_decomp (w : String) :
    parseQuery (sqlPrefix ++ w ++ sqlSuffix) =
      (match lexAll w.data with
       | some ts => parseWhere ts
       | none => none) := by
  have hdata : (sqlPrefix ++ w ++ sqlSuffix).data =
      sqlPrefix.data ++ (w.data ++ sqlSuffix.data) := by
    simp [String.data_append]
  simp only [parseQuery, hdata]
  rw [if_pos (by simp)]
  rw [List.drop_left]
  rw [if_pos (by simp)]
  rw [show (w.data ++ sqlSuffix.data).length - sqlSuffix.data.length = w.data.length by simp]
  rw [List.take_left]

/-- Every well-formed semantic condition passes static validation. -/
theorem validate_semAtom (a : SAtom) (hwf : wfAtom a = true) : validate (semAtom a) = true := by
  cases a with
  | scond c v =>
    simp only [wfAtom, Bool.and_eq_true, Bool.or_eq_true, beq_iff_eq] at hwf
    rcases hwf.1 with (h | h) | h <;> subst h <;> rfl
  | pcond m e => rfl

/-- A conjunction of well-formed conditions passes validation. -/
theorem validate_conjOf : ∀ (a : SAtom) (rest : List SAtom),
    (∀ x ∈ a :: rest, wfAtom x = true) → validate (conjOf a rest) = true := by
  intro a rest
  induction rest generalizing a with
  | nil =>
    intro h
    exact validate_semAtom a (h a (List.mem_cons_self a []))
  | cons b rest2 ih =>
    intro h
    simp only [conjOf, validate, Bool.and_eq_true]
    exact ⟨validate_semAtom a (h a (List.mem_cons_self a _)),
      ih b (fun x hx => h x (List.mem_cons_of_mem a hx))⟩

/-- A rendered decimal contains no SQL metacharacters. -/
theorem cleanValue_renderDecimal (m : Int) (e : Nat) : cleanValue (renderDecimal m e) = true := by
  obtain ⟨hPne, hPdig, hPval, hPlen⟩ := renderPad_spec m.natAbs e
  have hpred : ∀ c ∈ (renderDecimal m e).data,
      (!(c == qc || c == '%' || c == '_')) = true := by
    intro c hcm
    have hbody : c = Char.ofNat 45 ∨ c = Char.ofNat 46 ∨
        c ∈ List.replicate (e + 1 - (natToDigits m.natAbs).length) (Char.ofNat 48) ++
          natToDigits m.natAbs := by
      simp only [renderDecimal] at hcm
      rcases List.mem_append.mp hcm with h | h
      · left
        rcases hsign : m < 0 with _
        by_cases hs : m < 0
        · rw [if_pos hs] at h
          simp only [List.mem_singleton] at h
          exact h
        · rw [if_neg hs] at h
          simp at h
      · by_cases he : e = 0
        · rw [if_pos he] at h
          right
          right
          exact h
        · rw [if_neg he] at h
          rcases List.mem_append.mp h with h2 | h2
          · right
            right
            exact List.mem_of_mem_take h2
          · rcases List.mem_cons.mp h2 with h3 | h3
            · right
              left
              exact h3
            · right
              right
              exact (List.drop_sublist _ _).subset h3
    rcases hbody with h | h | h
    · subst h
      decide
    · subst h
      decide
    · obtain ⟨j, hj, hcj⟩ := hPdig c h
      subst hcj
      interval_cases j <;> decide
  exact List.all_eq_true.mpr hpred

/-- Every condition generated from a clean filter is well formed. -/
theorem atomsOf_wf (p : Params) (hc : cleanParams p = true) :
    ∀ x ∈ atomsOf p, wfAtom x = true := by
  have hcv : ∀ (f : Option JValue), cleanField f = true → optTruthy f = true →
      cleanValue (optPyStr f) = true := by
    intro f hf _
    rcases f with _ | v
    · decide
    · cases v with
      | jnull => decide
      | jbool b => cases b <;> decide
      | jnum m e => exact cleanValue_renderDecimal m e
      | jstr s => exact hf
  simp only [cleanParams, Bool.and_eq_true] at hc
  obtain ⟨⟨⟨h1, h2⟩, h3⟩, h4⟩ := hc
  intro x hx
  simp only [atomsOf, List.mem_append] at hx
  rcases hx with ((hx | hx) | hx) | hx
  · by_cases hb : optTruthy p.food_type = true
    · rw [if_pos hb] at hx
      simp only [List.mem_singleton] at hx
      subst hx
      simp only [wfAtom, Bool.and_eq_true]
      exact ⟨by decide, hcv _ h1 hb⟩
    · rw [if_neg hb] at hx
      simp at hx
  · by_cases hb : optTruthy p.age_group = true
    · rw [if_pos hb] at hx
      simp only [List.mem_singleton] at hx
      subst hx
      simp only [wfAtom, Bool.and_eq_true]
      exact ⟨by decide, hcv _ h2 hb⟩
    · rw [if_neg hb] at hx
      simp at hx
  · by_cases hb : optTruthy p.brand = true
    · rw [if_pos hb] at hx
      simp only [List.mem_singleton] at hx
      subst hx
      simp only [wfAtom, Bool.and_eq_true]
      exact ⟨by decide, hcv _ h3 hb⟩
    · rw [if_neg hb] at hx
      simp at hx
  · rcases hm : p.max_price with _ | v
    · rw [hm] at hx
      simp at hx
    · rw [hm] at hx
      cases v with
      | jnull => simp at hx
      | jbool b => simp at hx
      | jstr s => simp at hx
      | jnum m e =>
        dsimp only at hx
        by_cases hb : (JValue.jnum m e).truthy = true
        · rw [if_pos hb] at hx
          simp only [List.mem_singleton] at hx
          subst hx
          rfl
        · rw [if_neg hb] at hx
          simp at hx

/-- The generated query of a clean filter parses to the conjunction of
its semantic conditions and validates. -/
theorem parse_build_clean (p : Params) (hc : cleanParams p = true) :
    parseQuery (buildSqlQuery p) = some (whereExprOf p) ∧
    validate (whereExprOf p) = true := by
  have hbc := buildConditions_atoms p hc
  have hwf := atomsOf_wf p hc
  constructor
  · rw [show buildSqlQuery p = sqlPrefix ++
      (if (buildConditions p).isEmpty then "1=1" else joinAnd (buildConditions p)) ++
        sqlSuffix from rfl]
    rw [parseQuery_decomp]
    rcases hatoms : atomsOf p with _ | ⟨a, rest⟩
    · rw [hbc, hatoms]
      simp only [List.map_nil, List.isEmpty_nil, if_true]
      rw [show lexAll ("1=1" : String).data = some [Tok.num ⟨1, 0⟩, Tok.eq, Tok.num ⟨1, 0⟩]
        from by decide]
      simp only [whereExprOf, hatoms]
      decide
    · rw [hbc, hatoms]
      have hwf2 : ∀ x ∈ a :: rest, wfAtom x = true := by
        intro x hx
        exact hwf x (by rw [hatoms]; exact hx)
      simp only [List.map_cons, List.isEmpty_cons, if_false, Bool.false_eq_true]
      rw [show joinAnd (renderAtom a :: rest.map renderAtom) =
        joinAnd ((a :: rest).map renderAtom) from rfl]
      rw [lexAll_joinAnd a rest (hwf2 a (List.mem_cons_self a rest))
        (fun x hx => hwf2 x (List.mem_cons_of_mem a hx))]
      simp only [whereExprOf, hatoms]
      rw [parseWhere_toks a rest hwf2]
  · rcases hatoms : atomsOf p with _ | ⟨a, rest⟩
    · simp only [whereExprOf, hatoms]
      decide
    · simp only [whereExprOf, hatoms]
      exact validate_conjOf a rest (fun x hx => hwf x (by rw [hatoms]; exact hx))

/-- Executing the query of a clean filter: filter, sort, truncate. -/
theorem runQuery_clean (db : List Row) (p : Params) (hc : cleanParams p = true) :
    runQuery db (buildSqlQuery p) =
      some ((List.insertionSort nameLe (db.filter
        (fun r => evalB (whereExprOf p) r == TV.t))).take 20) := by
  obtain ⟨hparse, hval⟩ := parse_build_clean p hc
  simp only [runQuery, hparse, hval, if_true]


/-! ## Evaluation-side semantics of clean conditions -/

theorem tvAnd_eq_t {x y : TV} (h : tvAnd x y = TV.t) : x = TV.t ∧ y = TV.t := by
  cases x <;> cases y <;> simp_all [tvAnd]

theorem tvOfBool_eq_t {b : Bool} (h : tvOfBool b = TV.t) : b = true := by
  cases b <;> simp_all [tvOfBool]

theorem evalB_conjOf : ∀ (a : SAtom) (rest : List SAtom) (r : Row),
    evalB (conjOf a rest) r = TV.t → ∀ x ∈ a :: rest, evalB (semAtom x) r = TV.t := by
  intro a rest
  induction rest generalizing a with
  | nil =>
    intro r h x hx
    simp only [List.mem_singleton] at hx
    subst hx
    exact h
  | cons b rest2 ih =>
    intro r h x hx
    simp only [conjOf, evalB] at h
    obtain ⟨h1, h2⟩ := tvAnd_eq_t h
    rcases List.mem_cons.mp hx with hx | hx
    · subst hx
      exact h1
    · exact ih b r h2 x hx

theorem evalB_whereExprOf (p : Params) (r : Row) (h : evalB (whereExprOf p) r = TV.t) :
    ∀ x ∈ atomsOf p, evalB (semAtom x) r = TV.t := by
  intro x hx
  rcases hatoms : atomsOf p with _ | ⟨a, rest⟩
  · rw [hatoms] at hx
    simp at hx
  · rw [hatoms] at hx
    simp only [whereExprOf, hatoms] at h
    exact evalB_conjOf a rest r h x hx

theorem evalB_scond (r : Row) (c v : String)
    (h : evalB (semAtom (.scond c v)) r = TV.t) :
    ∃ s, r.colVal c = SqlVal.vstr s ∧ ilikeStr s ("%" ++ v ++ "%") = true := by
  simp only [semAtom, evalB, evalPrim] at h
  rcases hcv : r.colVal c with _ | s | d <;> rw [hcv] at h
  · simp [evalCmp] at h
  · refine ⟨s, rfl, ?_⟩
    simp only [evalCmp] at h
    exact tvOfBool_eq_t h
  · simp [evalCmp] at h

theorem evalB_pcond (r : Row) (m : Int) (e : Nat)
    (h : evalB (semAtom (.pcond m e)) r = TV.t) :
    ∃ d, r.price = some d ∧ d.ble ⟨m, e⟩ = true := by
  simp only [semAtom, evalB, evalPrim, Row.colVal] at h
  rw [if_neg (by decide), if_neg (by decide), if_neg (by decide), if_pos trivial] at h
  rcases hp : r.price with _ | d <;> rw [hp] at h
  · simp [evalCmp] at h
  · refine ⟨d, rfl, ?_⟩
    simp only [evalCmp] at h
    exact tvOfBool_eq_t h

theorem colVal_food_type (r : Row) (s : String) (h : r.colVal "food_type" = .vstr s) :
    r.food_type = some s := by
  simp only [Row.colVal] at h
  rw [if_neg (by decide), if_neg (by decide), if_neg (by decide), if_neg (by decide),
    if_pos trivial] at h
  rcases hf : r.food_type with _ | s2 <;> rw [hf] at h
  · simp at h
  · simp at h
    rw [h]

theorem colVal_age_group (r : Row) (s : String) (h : r.colVal "age_group" = .vstr s) :
    r.age_group = some s := by
  simp only [Row.colVal] at h
  rw [if_neg (by decide), if_neg (by decide), if_neg (by decide), if_neg (by decide),
    if_neg (by decide), if_pos trivial] at h
  rcases hf : r.age_group with _ | s2 <;> rw [hf] at h
  · simp at h
  · simp at h
    rw [h]

theorem colVal_brand (r : Row) (s : String) (h : r.colVal "brand" = .vstr s) :
    r.brand = s := by
  simp only [Row.colVal] at h
  rw [if_neg (by decide), if_neg (by decide), if_pos trivial] at h
  simp at h
  exact h

theorem Dec.ble_iff (a b : Dec) : a.ble b = true ↔ a.toQ ≤ b.toQ := by
  simp only [Dec.ble, decide_eq_true_eq, Dec.toQ]
  rw [div_le_div_iff₀ (by positivity) (by positivity)]
  constructor
  · intro h
    exact_mod_cast h
  · intro h
    exact_mod_cast h

/-! ## LIKE matching is substring containment for wildcard-free values -/

theorem likeMatchF_succ (fuel : Nat) (p s : List Char) :
    likeMatchF (fuel + 1) p s = (match p with
    | [] => s.isEmpty
    | pc :: ps =>
      if pc = '\\' then
        match ps with
        | [] => false
        | q :: ps2 =>
          match s with
          | [] => false
          | c :: s1 => (q == c) && likeMatchF fuel ps2 s1
      else if pc = '%' then
        likeMatchF fuel ps s ||
          (match s with
           | [] => false
           | _ :: s2 => likeMatchF fuel (pc :: ps) s2)
      else
        match s with
        | [] => false
        | c :: s1 =>
          if pc = '_' then likeMatchF fuel ps s1
          else (pc == c) && likeMatchF fuel ps s1) := rfl

theorem likeMatchF_congr : ∀ (f : Nat), ∀ (g : Nat) (p s : List Char),
    p.length + s.length < f → p.length + s.length < g →
    likeMatchF f p s = likeMatchF g p s := by
  intro f
  induction f with
  | zero =>
    intro g p s hf _
    omega
  | succ f1 ih =>
    intro g p s hf hg
    cases g with
    | zero => omega
    | succ g1 =>
      rw [likeMatchF_succ, likeMatchF_succ]
      rcases p with _ | ⟨pc, ps⟩
      · rfl
      · dsimp only
        simp only [List.length_cons] at hf hg
        by_cases hbs : pc = '\\'
        · rw [if_pos hbs, if_pos hbs]
          rcases ps with _ | ⟨q, ps2⟩
          · rfl
          · dsimp only
            rcases s with _ | ⟨c, s1⟩
            · rfl
            · dsimp only
              simp only [List.length_cons] at hf hg
              rw [ih g1 ps2 s1 (by omega) (by omega)]
        · rw [if_neg hbs, if_neg hbs]
          by_cases hpc : pc = '%'
          · rw [if_pos hpc, if_pos hpc]
            rw [ih g1 ps s (by omega) (by omega)]
            rcases s with _ | ⟨c, s1⟩
            · rfl
            · dsimp only
              simp only [List.length_cons] at hf hg
              rw [ih g1 (pc :: ps) s1 (by simp only [List.length_cons]; omega)
                (by simp only [List.length_cons]; omega)]
          · rw [if_neg hpc, if_neg hpc]
            rcases s with _ | ⟨c, s1⟩
            · rfl
            · dsimp only
              simp only [List.length_cons] at hf hg
              by_cases hu : pc = '_'
              · rw [if_pos hu, if_pos hu, ih g1 ps s1 (by omega) (by omega)]
              · rw [if_neg hu, if_neg hu, ih g1 ps s1 (by omega) (by omega)]

theorem likeMatchF_eq (f : Nat) (p s : List Char) (h : p.length + s.length < f) :
    likeMatchF f p s = likeMatch p s :=
  likeMatchF_congr f (p.length + s.length + 1) p s h (by omega)

theorem likeMatch_nilp (s : List Char) : likeMatch [] s = s.isEmpty := by
  rw [likeMatch, show ([] : List Char).length + s.length + 1 = s.length + 1 from by simp,
    likeMatchF_succ]

theorem likeMatch_pct_nil (ps : List Char) :
    likeMatch ('%' :: ps) [] = likeMatch ps [] := by
  rw [likeMatch, show ('%' :: ps).length + ([] : List Char).length + 1
      = (ps.length + ([] : List Char).length + 1) + 1 from by simp, likeMatchF_succ]
  dsimp only
  rw [if_neg (by decide), if_pos rfl]
  rw [likeMatch]
  simp

theorem likeMatch_pct_cons (ps : List Char) (c : Char) (s1 : List Char) :
    likeMatch ('%' :: ps) (c :: s1) = (likeMatch ps (c :: s1) || likeMatch ('%' :: ps) s1) := by
  rw [likeMatch, show ('%' :: ps).length + (c :: s1).length + 1
      = (ps.length + s1.length + 2) + 1 from by simp only [List.length_cons]; omega,
    likeMatchF_succ]
  dsimp only
  rw [if_neg (by decide), if_pos rfl]
  rw [likeMatchF_eq (ps.length + s1.length + 2) ps (c :: s1)
    (by simp only [List.length_cons]; omega)]
  rw [likeMatchF_eq (ps.length + s1.length + 2) ('%' :: ps) s1
    (by simp only [List.length_cons]; omega)]

theorem likeMatch_cons_ne_nil (pc : Char) (ps : List Char) (hb : pc ≠ '\\') (h1 : pc ≠ '%') :
    likeMatch (pc :: ps) [] = false := by
  rw [likeMatch, show (pc :: ps).length + ([] : List Char).length + 1
      = (ps.length + 1) + 1 from by simp, likeMatchF_succ]
  dsimp only
  rw [if_neg hb, if_neg h1]

theorem likeMatch_cons_ne_cons (pc : Char) (ps : List Char) (c : Char) (s1 : List Char)
    (hb : pc ≠ '\\') (h1 : pc ≠ '%') (h2 : pc ≠ '_') :
    likeMatch (pc :: ps) (c :: s1) = ((pc == c) && likeMatch ps s1) := by
  rw [likeMatch, show (pc :: ps).length + (c :: s1).length + 1
      = (ps.length + s1.length + 2) + 1 from by simp only [List.length_cons]; omega,
    likeMatchF_succ]
  dsimp only
  rw [if_neg hb, if_neg h1, if_neg h2,
    likeMatchF_eq (ps.length + s1.length + 2) ps s1 (by omega)]

/-- The escape character makes the following character literal: the
pattern `%\%%` matches subjects containing a percent sign and only
those. -/
theorem likeMatch_escape_literalizes :
    likeMatch ('%' :: '\\' :: '%' :: ['%']) ('a' :: '%' :: ['b']) = true ∧
    likeMatch ('%' :: '\\' :: '%' :: ['%']) ('a' :: ['b']) = false := by
  decide

theorem likeMatch_pct_iff (ps : List Char) : ∀ (s : List Char),
    likeMatch ('%' :: ps) s = true ↔ ∃ s2, s2 <:+ s ∧ likeMatch ps s2 = true := by
  intro s
  induction s with
  | nil =>
    rw [likeMatch_pct_nil]
    constructor
    · intro h
      exact ⟨[], List.suffix_refl [], h⟩
    · rintro ⟨s2, hs2, hm⟩
      rw [List.suffix_nil.mp hs2] at hm
      exact hm
  | cons c s1 ih =>
    rw [likeMatch_pct_cons, Bool.or_eq_true]
    constructor
    · rintro (h | h)
      · exact ⟨c :: s1, List.suffix_refl _, h⟩
      · obtain ⟨s2, hs2, hm⟩ := ih.mp h
        exact ⟨s2, hs2.trans (List.suffix_cons c s1), hm⟩
    · rintro ⟨s2, hs2, hm⟩
      rcases List.suffix_cons_iff.mp hs2 with h | h
      · subst h
        left
        exact hm
      · right
        exact ih.mpr ⟨s2, h, hm⟩

theorem likeMatch_lit_iff : ∀ (v : List Char), (∀ c ∈ v, c ≠ '%' ∧ c ≠ '_' ∧ c ≠ '\\') →
    ∀ (s : List Char), likeMatch (v ++ ['%']) s = true ↔ v <+: s := by
  intro v
  induction v with
  | nil =>
    intro _ s
    simp only [List.nil_append]
    rw [likeMatch_pct_iff]
    constructor
    · intro _
      exact List.nil_prefix
    · intro _
      refine ⟨[], List.nil_suffix, ?_⟩
      rw [likeMatch_nilp]
      rfl
  | cons a v1 ihv =>
    intro hv s
    have ha := hv a (List.mem_cons_self a v1)
    rw [List.cons_append]
    rcases s with _ | ⟨c, s1⟩
    · rw [likeMatch_cons_ne_nil a (v1 ++ ['%']) ha.2.2 ha.1]
      simp
    · rw [likeMatch_cons_ne_cons a (v1 ++ ['%']) c s1 ha.2.2 ha.1 ha.2.1]
      rw [Bool.and_eq_true, beq_iff_eq]
      rw [ihv (fun x hx => hv x (List.mem_cons_of_mem a hx)) s1]
      exact ( List.cons_prefix_cons).symm

theorem likeMatch_contains_iff (v : List Char)
    (hv : ∀ c ∈ v, c ≠ '%' ∧ c ≠ '_' ∧ c ≠ '\\')
    (s : List Char) : likeMatch ('%' :: (v ++ ['%'])) s = true ↔ v <:+: s := by
  rw [likeMatch_pct_iff]
  rw [ List.infix_iff_prefix_suffix]
  constructor
  · rintro ⟨s2, hsuf, hm⟩
    exact ⟨s2, (likeMatch_lit_iff v hv s2).mp hm, hsuf⟩
  · rintro ⟨t, hpre, hsuf⟩
    exact ⟨t, hsuf, (likeMatch_lit_iff v hv t).mpr hpre⟩

theorem toLower_not_special (c : Char) (h1 : c ≠ '%') (h2 : c ≠ '_') (h3 : c ≠ '\\') :
    c.toLower ≠ '%' ∧ c.toLower ≠ '_' ∧ c.toLower ≠ '\\' := by
  have key : ∀ j : Nat, 97 ≤ j → j ≤ 122 →
      Char.ofNat j ≠ '%' ∧ Char.ofNat j ≠ '_' ∧ Char.ofNat j ≠ '\\' := by
    intro j hj1 hj2
    interval_cases j <;> exact ⟨by decide, by decide, by decide⟩
  simp only [Char.toLower]
  split
  · rename_i h
    obtain ⟨ha, hb⟩ := h
    exact key (c.toNat + 32) (by omega) (by omega)
  · exact ⟨h1, h2, h3⟩

theorem ilike_contains (s v : String) (hv : literalValue v = true) :
    (ilikeStr s ("%" ++ v ++ "%") = true) ↔ containsCI s v := by
  have hd : ("%" ++ v ++ "%").data = '%' :: (v.data ++ ['%']) := by
    simp [String.data_append]
  have hpat : lowerList ("%" ++ v ++ "%").data = '%' :: (lowerList v.data ++ ['%']) := by
    rw [hd]
    simp only [lowerList, List.map_cons, List.map_append, List.map_nil]
    rw [show Char.toLower '%' = '%' from by decide]
  have hw : ∀ c ∈ lowerList v.data, c ≠ '%' ∧ c ≠ '_' ∧ c ≠ '\\' := by
    intro c hc
    simp only [lowerList, List.mem_map] at hc
    obtain ⟨x, hx, hcx⟩ := hc
    have h2 := (List.all_eq_true.mp hv) x hx
    simp only [Bool.not_eq_true', Bool.or_eq_false_iff, beq_eq_false_iff_ne] at h2
    subst hcx
    exact toLower_not_special x h2.1.1.2 h2.1.2 h2.2
  rw [ilikeStr, hpat, likeMatch_contains_iff (lowerList v.data) hw]
  exact Iff.rfl

theorem literalValue_clean {v : String} (h : literalValue v = true) : cleanValue v = true := by
  rw [literalValue, List.all_eq_true] at h
  rw [cleanValue, List.all_eq_true]
  intro x hx
  have h2 := h x hx
  simp only [Bool.not_eq_true', Bool.or_eq_false_iff] at h2 ⊢
  exact h2.1

theorem literalField_clean {o : Option JValue} (h : literalField o = true) :
    cleanField o = true := by
  rcases o with _ | v
  · rfl
  · rcases v with _ | b | ⟨m, e⟩ | v
    · rfl
    · rfl
    · rfl
    · exact literalValue_clean h

theorem literalParams_clean {p : Params} (h : literalParams p = true) :
    cleanParams p = true := by
  simp only [literalParams, Bool.and_eq_true] at h
  simp only [cleanParams, Bool.and_eq_true]
  exact ⟨⟨⟨literalField_clean h.1.1.1, literalField_clean h.1.1.2⟩,
    literalField_clean h.1.2⟩, h.2⟩

theorem mem_runQuery_clean (db : List Row) (p : Params) (rows : List Row) (r : Row)
    (hc : cleanParams p = true) (hq : runQuery db (buildSqlQuery p) = some rows)
    (hr : r ∈ rows) : evalB (whereExprOf p) r = TV.t := by
  rw [runQuery_clean db p hc, Option.some_inj] at hq
  subst hq
  have h1 := List.mem_of_mem_take hr
  have h2 := (List.perm_insertionSort nameLe _).mem_iff.mp h1
  have h3 := List.mem_filter.mp h2
  have h4 := h3.2
  rcases hev : evalB (whereExprOf p) r with _ | _ | _ <;> rw [hev] at h4 <;>
    revert h4 <;> decide

/-! ## C5 and C6 -/

set_option maxRecDepth 10000 in
/-- C5 (counterexample): the filter value `k%t` for `age_group` contains a
LIKE wildcard which the builder interpolates verbatim, so the stored row
with age group `kAt` is returned although `kAt` does not contain the
literal value `k%t` as a substring: interpolation gives the value pattern
semantics, not the claimed literal-substring semantics. -/
theorem wildcard_value_breaks_substring_semantics :
    pPct.age_group = some (.jstr "k%t") ∧
    runQuery [rowKat] (buildSqlQuery pPct) = some [rowKat] ∧
    rowKat.age_group = some "kAt" ∧ ¬containsCI "kAt" "k%t" := by
  refine ⟨rfl, by decide, rfl, by decide⟩

/-- C5 (amended): for every filter whose string values are free of the SQL
quote character, the LIKE wildcards `%` and `_`, and the LIKE escape
character (backslash), every row returned by the generated query contains
each filtered string value as a case-insensitive substring of the
corresponding stored column (`age_group`, `food_type`, `brand`). -/
theorem clean_string_filters_substring (db : List Row) (p : Params) (rows : List Row)
    (r : Row) (hc : literalParams p = true)
    (hq : runQuery db (buildSqlQuery p) = some rows) (hr : r ∈ rows) :
    (∀ v, p.age_group = some (.jstr v) → v ≠ "" →
      ∃ ag, r.age_group = some ag ∧ containsCI ag v) ∧
    (∀ v, p.food_type = some (.jstr v) → v ≠ "" →
      ∃ ft, r.food_type = some ft ∧ containsCI ft v) ∧
    (∀ v, p.brand = some (.jstr v) → v ≠ "" → containsCI r.brand v) := by
  have hev := mem_runQuery_clean db p rows r (literalParams_clean hc) hq hr
  have hcp := hc
  simp only [literalParams, Bool.and_eq_true] at hcp
  refine ⟨?_, ?_, ?_⟩
  · intro v hfield hv
    have hmem : SAtom.scond "age_group" v ∈ atomsOf p := by
      have ht : optTruthy p.age_group = true := by
        rw [hfield]
        simp [optTruthy, JValue.truthy, hv]
      have hs : optPyStr p.age_group = v := by
        rw [hfield]
        rfl
      simp only [atomsOf, List.mem_append]
      left
      left
      right
      simp [ht, hs]
    obtain ⟨s, hcol, hil⟩ := evalB_scond r "age_group" v (evalB_whereExprOf p r hev _ hmem)
    have hcv : literalValue v = true := by
      have h3 := hcp.1.1.2
      rw [hfield] at h3
      exact h3
    exact ⟨s, colVal_age_group r s hcol, (ilike_contains s v hcv).mp hil⟩
  · intro v hfield hv
    have hmem : SAtom.scond "food_type" v ∈ atomsOf p := by
      have ht : optTruthy p.food_type = true := by
        rw [hfield]
        simp [optTruthy, JValue.truthy, hv]
      have hs : optPyStr p.food_type = v := by
        rw [hfield]
        rfl
      simp only [atomsOf, List.mem_append]
      left
      left
      left
      simp [ht, hs]
    obtain ⟨s, hcol, hil⟩ := evalB_scond r "food_type" v (evalB_whereExprOf p r hev _ hmem)
    have hcv : literalValue v = true := by
      have h3 := hcp.1.1.1
      rw [hfield] at h3
      exact h3
    exact ⟨s, colVal_food_type r s hcol, (ilike_contains s v hcv).mp hil⟩
  · intro v hfield hv
    have hmem : SAtom.scond "brand" v ∈ atomsOf p := by
      have ht : optTruthy p.brand = true := by
        rw [hfield]
        simp [optTruthy, JValue.truthy, hv]
      have hs : optPyStr p.brand = v := by
        rw [hfield]
        rfl
      simp only [atomsOf, List.mem_append]
      left
      right
      simp [ht, hs]
    obtain ⟨s, hcol, hil⟩ := evalB_scond r "brand" v (evalB_whereExprOf p r hev _ hmem)
    have hcv : literalValue v = true := by
      have h3 := hcp.1.2
      rw [hfield] at h3
      exact h3
    rw [colVal_brand r s hcol]
    exact (ilike_contains s v hcv).mp hil

set_option maxRecDepth 10000 in
/-- Witness for the amended C5 theorem: the documented example, a kitten
filter matching the stored age group `Kitten (1-12m)`. -/
theorem clean_string_filters_substring_witness :
    literalParams pKitten = true ∧
    runQuery [rowX, rowK2] (buildSqlQuery pKitten) = some [rowK2] ∧
    rowK2 ∈ [rowK2] ∧ (∃ ag, rowK2.age_group = some ag ∧ containsCI ag "kitten") :=
  ⟨by decide, by decide, by decide,
    (clean_string_filters_substring [rowX, rowK2] pKitten [rowK2] rowK2 (by decide)
      (by decide) (by decide)).1 "kitten" rfl (by decide)⟩

set_option maxRecDepth 10000 in
/-- C6 (counterexample): with `max_price = 20.0` but a brand value carrying
the payload `%' OR '1'='1`, interpolation closes the LIKE pattern early and
the injected OR defeats the price bound: the thirty-dollar product is
returned. -/
theorem injected_brand_defeats_max_price :
    pC6.max_price = some (.jnum 200 1) ∧
    runQuery [rowX] (buildSqlQuery pC6) = some [rowX] ∧
    rowX.price = some ⟨30, 0⟩ ∧ ¬((⟨30, 0⟩ : Dec).toQ ≤ (⟨200, 1⟩ : Dec).toQ) := by
  refine ⟨rfl, by decide, rfl, ?_⟩
  norm_num [Dec.toQ]

/-- C6 (amended): for every filter free of SQL metacharacters with
`max_price = 20.0`, every row returned by the generated query has a
non-null stored price of at most twenty dollars; in particular rows with a
NULL price are excluded. -/
theorem max_price_20_bounds_results (db : List Row) (p : Params) (rows : List Row)
    (r : Row) (hc : cleanParams p = true) (hmp : p.max_price = some (.jnum 200 1))
    (hq : runQuery db (buildSqlQuery p) = some rows) (hr : r ∈ rows) :
    ∃ d, r.price = some d ∧ d.toQ ≤ 20 := by
  have hev := mem_runQuery_clean db p rows r hc hq hr
  have hmem : SAtom.pcond 200 1 ∈ atomsOf p := by
    simp only [atomsOf, List.mem_append]
    right
    rw [hmp]
    simp [JValue.truthy]
  obtain ⟨d, hd, hble⟩ := evalB_pcond r 200 1 (evalB_whereExprOf p r hev _ hmem)
  refine ⟨d, hd, ?_⟩
  have h := (Dec.ble_iff d ⟨200, 1⟩).mp hble
  rw [show (⟨200, 1⟩ : Dec).toQ = 20 from by norm_num [Dec.toQ]] at h
  exact h

set_option maxRecDepth 10000 in
/-- Witness for the amended C6 theorem: a twenty-dollar bound excludes the
thirty-dollar product and the returned fifteen-dollar product satisfies
the bound. -/
theorem max_price_20_bounds_results_witness :
    cleanParams pMax = true ∧ pMax.max_price = some (.jnum 200 1) ∧
    runQuery [rowX, rowK2] (buildSqlQuery pMax) = some [rowK2] ∧
    rowK2 ∈ [rowK2] ∧ (∃ d, rowK2.price = some d ∧ d.toQ ≤ 20) :=
  ⟨by decide, rfl, by decide, by decide,
    max_price_20_bounds_results [rowX, rowK2] pMax [rowK2] rowK2 (by decide) rfl
      (by decide) (by decide)⟩

end CatFood

